import Mathlib

/-!
Shallow embedding of the BOS deserializer and validator from
src/src/bos_deserializer.c (bos-jansson), together with theorems settling
the specification claims about it.

Modelling conventions:
* A byte buffer is a `List Nat` of values < 256 (well-formedness is carried
  as a hypothesis where it matters).  Reads past the end of the list return
  0 via `List.getD` (in C such reads are undefined behaviour; the validator
  never performs them on accepted inputs, the decoder may).
* Machine integers are `Nat`/`Int` with explicit `% 2^32` where the C code
  performs 32-bit arithmetic: `buffer_t.read` is a `uint32_t`, and
  `validate_read`'s `amount` parameter is an `unsigned int`, so the
  argument `sizeof(char) * len` (a 64-bit value) is truncated mod 2^32 and
  the bounds-check addition `read + amount` wraps mod 2^32.
* Recursion in the C walkers is modelled with explicit fuel; exhausting
  fuel is a distinct outcome from returning TRUE/FALSE or NULL.  A C
  execution that recurses or loops forever corresponds to exhausting every
  finite fuel.
* The external value-model library (jansson) is modelled from the spec:
  factory functions may signal allocation failure, driven by an oracle
  `alloc : Nat -> Bool` consulted at the k-th allocation.  `json_null`,
  `json_true`, `json_false` are static singletons and never allocate.
  Raw `jsonp_malloc` results are used unchecked by the C code (failure is
  undefined behaviour there), so they are modelled as succeeding.
  UTF-8 checking of strings is out of scope per the spec; a decoded string
  value is the raw payload byte list.  Floats are kept as raw payload
  bytes (their numeric meaning is never needed by the claims).
-/

namespace Bos

/-- 2^32, the modulus of the C `uint32_t` / `unsigned int` arithmetic. -/
def M32 : Nat := 4294967296

/-- Little-endian value of a byte list (memcpy into an integer). -/
def leVal : List Nat → Nat
  | [] => 0
  | b :: bs => b + 256 * leVal bs

/-- The `n` bytes of `data` starting at position `pos` (reads past the end
of the list give 0, standing in for the C undefined behaviour). -/
def bytesAt (data : List Nat) (pos : Nat) : Nat → List Nat
  | 0 => []
  | n + 1 => data.getD pos 0 :: bytesAt data (pos + 1) n

/-- The buffer cursor `buffer_t`: the underlying bytes, the `read` cursor
(a `uint32_t`, always kept < 2^32) and the declared `size` from the
header.  The C `pos` pointer always equals `data + read` and is not
modelled separately. -/
structure Buffer where
  data : List Nat
  read : Nat
  size : Nat
deriving DecidableEq, Repr

/-- `read_buffer`: copy `n` bytes from the cursor and advance.  The C
advance is `read += (uint32_t)n`, performed in 32-bit arithmetic. -/
def read_buffer_n (b : Buffer) (n : Nat) : List Nat × Buffer :=
  (bytesAt b.data b.read n, { b with read := (b.read + n % M32) % M32 })

/-- `buffer_init`: read the 4-byte little-endian size header; afterwards
`read = 4`. -/
def buffer_init (data : List Nat) : Buffer :=
  { data := data, read := 4, size := leVal (bytesAt data 0 4) }

/-! ### The value model (modelled from the spec)

Modelled from the spec: the jansson value tree produced by the decoder is
external to src/.  Per spec section 3, a value is
`Null | Bool | Integer(64-bit signed) | Real | String | Bytes | Array |
Object (mapping, keys unique, last write wins)`. -/

inductive JValue where
  | null
  | boolean (b : Bool)
  | integer (n : Int)
  | real32 (payload : List Nat)
  | real64 (payload : List Nat)
  | str (s : List Nat)
  | bytes (s : List Nat)
  | array (xs : List JValue)
  | object (entries : List (List Nat × JValue))
deriving Repr

/-- Modelled from the spec: `json_object_set` of the external value model.
Keys unique, last write wins: replace the value of an existing key,
otherwise append the new entry. -/
def objSet : List (List Nat × JValue) → List Nat → JValue → List (List Nat × JValue)
  | [], key, v => [(key, v)]
  | e :: es, key, v => if e.1 = key then (key, v) :: es else e :: objSet es key v

/-- Modelled from the spec: key lookup in the object value model. -/
def objLookup : List (List Nat × JValue) → List Nat → Option JValue
  | [], _ => none
  | e :: es, key => if e.1 = key then some e.2 else objLookup es key

/-- Result of a decoder function: a value with the advanced buffer and
allocation counter, the C `NULL` error return, or fuel exhaustion
(the model's representation of non-termination). -/
inductive DRes where
  | ok (v : JValue) (b : Buffer) (k : Nat)
  | null
  | fuel
deriving Repr

/-- The allocation oracle that always succeeds. -/
def allocOk : Nat → Bool := fun _ => true

/-- Modelled from the spec: `json_integer` factory; allocation may fail,
in which case the C caller sees NULL. -/
def json_integer (alloc : Nat → Bool) (k : Nat) (b : Buffer) (n : Int) : DRes :=
  if alloc k then .ok (.integer n) b (k + 1) else .null

/-- Modelled from the spec: `json_real` factory for a 4-byte float payload. -/
def json_real32 (alloc : Nat → Bool) (k : Nat) (b : Buffer) (p : List Nat) : DRes :=
  if alloc k then .ok (.real32 p) b (k + 1) else .null

/-- Modelled from the spec: `json_real` factory for an 8-byte double payload. -/
def json_real64 (alloc : Nat → Bool) (k : Nat) (b : Buffer) (p : List Nat) : DRes :=
  if alloc k then .ok (.real64 p) b (k + 1) else .null

/-- Modelled from the spec: `json_string` factory. -/
def json_string_f (alloc : Nat → Bool) (k : Nat) (b : Buffer) (s : List Nat) : DRes :=
  if alloc k then .ok (.str s) b (k + 1) else .null

/-- Modelled from the spec: `json_bytes` factory. -/
def json_bytes_f (alloc : Nat → Bool) (k : Nat) (b : Buffer) (s : List Nat) : DRes :=
  if alloc k then .ok (.bytes s) b (k + 1) else .null

/-- Two's-complement reinterpretation of an unsigned `bits`-bit value. -/
def asSigned (bits : Nat) (v : Nat) : Int :=
  if v < 2 ^ (bits - 1) then (v : Int) else (v : Int) - 2 ^ bits

/-! ### Decoder scalar readers (from read_bool .. read_real64) -/

/-- `read_bool`: one byte; 0 is false, anything else true (static
singletons, no allocation). -/
def read_bool (b : Buffer) : JValue × Buffer :=
  let r := read_buffer_n b 1
  (if leVal r.1 = 0 then .boolean false else .boolean true, r.2)

def read_int8 (alloc : Nat → Bool) (k : Nat) (b : Buffer) : DRes :=
  let r := read_buffer_n b 1
  json_integer alloc k r.2 (asSigned 8 (leVal r.1))

def read_int16 (alloc : Nat → Bool) (k : Nat) (b : Buffer) : DRes :=
  let r := read_buffer_n b 2
  json_integer alloc k r.2 (asSigned 16 (leVal r.1))

def read_int32 (alloc : Nat → Bool) (k : Nat) (b : Buffer) : DRes :=
  let r := read_buffer_n b 4
  json_integer alloc k r.2 (asSigned 32 (leVal r.1))

def read_int64 (alloc : Nat → Bool) (k : Nat) (b : Buffer) : DRes :=
  let r := read_buffer_n b 8
  json_integer alloc k r.2 (asSigned 64 (leVal r.1))

def read_uint8 (alloc : Nat → Bool) (k : Nat) (b : Buffer) : DRes :=
  let r := read_buffer_n b 1
  json_integer alloc k r.2 (leVal r.1)

def read_uint16 (alloc : Nat → Bool) (k : Nat) (b : Buffer) : DRes :=
  let r := read_buffer_n b 2
  json_integer alloc k r.2 (leVal r.1)

def read_uint32 (alloc : Nat → Bool) (k : Nat) (b : Buffer) : DRes :=
  let r := read_buffer_n b 4
  json_integer alloc k r.2 (leVal r.1)

/-- `read_uint64` reads the 8 bytes into an `int64_t`, so values at or
above 2^63 are reinterpreted as negative. -/
def read_uint64 (alloc : Nat → Bool) (k : Nat) (b : Buffer) : DRes :=
  let r := read_buffer_n b 8
  json_integer alloc k r.2 (asSigned 64 (leVal r.1))

def read_real32 (alloc : Nat → Bool) (k : Nat) (b : Buffer) : DRes :=
  let r := read_buffer_n b 4
  json_real32 alloc k r.2 r.1

def read_real64 (alloc : Nat → Bool) (k : Nat) (b : Buffer) : DRes :=
  let r := read_buffer_n b 8
  json_real64 alloc k r.2 r.1

/-- `read_uvarint`: one tag byte; 0xFF / 0xFE / 0xFD announce an 8-, 4- or
2-byte little-endian payload, anything else is the value itself.  The C
switch is modelled as an if-chain. -/
def read_uvarint (b : Buffer) : Nat × Buffer :=
  let r := read_buffer_n b 1
  let t := leVal r.1
  if t = 255 then
    let r8 := read_buffer_n r.2 8
    (leVal r8.1, r8.2)
  else if t = 254 then
    let r4 := read_buffer_n r.2 4
    (leVal r4.1, r4.2)
  else if t = 253 then
    let r2 := read_buffer_n r.2 2
    (leVal r2.1, r2.2)
  else
    (t, r.2)

/-- `read_raw_string`: varint length, then that many raw bytes; a zero
length consumes nothing further and yields the empty string.  The raw
`jsonp_malloc` is unchecked in C and modelled as succeeding. -/
def read_raw_string (b : Buffer) : List Nat × Buffer :=
  let r := read_uvarint b
  if r.1 > 0 then read_buffer_n r.2 r.1 else ([], r.2)

def read_string (alloc : Nat → Bool) (k : Nat) (b : Buffer) : DRes :=
  let r := read_raw_string b
  json_string_f alloc k r.2 r.1

/-- `read_bytes`: varint length then that many raw bytes (also for length
0, where `read_buffer` of 0 bytes is a no-op). -/
def read_bytes (alloc : Nat → Bool) (k : Nat) (b : Buffer) : DRes :=
  let r := read_uvarint b
  let rb := read_buffer_n r.2 r.1
  json_bytes_f alloc k rb.2 rb.1

/-- `read_data_type`: one tag byte; values above 0x0F fall back to
BOS_NULL (= 0). -/
def read_data_type (b : Buffer) : Nat × Buffer :=
  let r := read_buffer_n b 1
  let t := leVal r.1
  (if t > 15 then 0 else t, r.2)

/-! ### Recursive decoder -/

mutual

/-- `read_value`: read a tag byte and dispatch. -/
def read_value (alloc : Nat → Bool) (fuel k : Nat) (b : Buffer) : DRes :=
  match fuel with
  | 0 => .fuel
  | f + 1 =>
    let r := read_data_type b
    read_data alloc f r.1 k r.2
  termination_by structural fuel

/-- `read_data`: dispatch on the (already clamped) data type. -/
def read_data (alloc : Nat → Bool) (fuel : Nat) (dt k : Nat) (b : Buffer) : DRes :=
  match fuel with
  | 0 => .fuel
  | f + 1 =>
    match dt with
    | 0 => .ok .null b k
    | 1 => let r := read_bool b; .ok r.1 r.2 k
    | 2 => read_int8 alloc k b
    | 3 => read_int16 alloc k b
    | 4 => read_int32 alloc k b
    | 5 => read_int64 alloc k b
    | 6 => read_uint8 alloc k b
    | 7 => read_uint16 alloc k b
    | 8 => read_uint32 alloc k b
    | 9 => read_uint64 alloc k b
    | 10 => read_real32 alloc k b
    | 11 => read_real64 alloc k b
    | 12 => read_string alloc k b
    | 13 => read_bytes alloc k b
    | 14 => read_array alloc f k b
    | 15 => read_obj alloc f k b
    | _ => .null
  termination_by structural fuel

/-- `read_array`: varint count, then that many values appended in order.
The unchecked `json_array()` allocation is modelled as succeeding. -/
def read_array (alloc : Nat → Bool) (fuel k : Nat) (b : Buffer) : DRes :=
  match fuel with
  | 0 => .fuel
  | f + 1 =>
    let r := read_uvarint b
    read_array_loop alloc f 0 r.1 [] k r.2
  termination_by structural fuel

/-- The `for (unsigned int i = 0; i < len; ++i)` loop of `read_array`:
`i` is a 32-bit counter and wraps, so a count of 2^32 or more never lets
`i` reach `len` (an infinite loop in C, exhausting every fuel here).  The
return value of `json_array_append` is ignored by the C code, so a failed
append silently drops the entry. -/
def read_array_loop (alloc : Nat → Bool) (fuel i len : Nat) (acc : List JValue)
    (k : Nat) (b : Buffer) : DRes :=
  if i < len then
    match fuel with
    | 0 => .fuel
    | f + 1 =>
      match read_value alloc f k b with
      | .ok v b' k' =>
        read_array_loop alloc f ((i + 1) % M32) len
          (if alloc k' then acc ++ [v] else acc) (k' + 1) b'
      | .null => .null
      | .fuel => .fuel
  else .ok (.array acc) b k
  termination_by structural fuel

/-- `read_obj`: varint count, then that many (raw string key, value)
pairs, each applied with a `json_object_set` (return value ignored). -/
def read_obj (alloc : Nat → Bool) (fuel k : Nat) (b : Buffer) : DRes :=
  match fuel with
  | 0 => .fuel
  | f + 1 =>
    let r := read_uvarint b
    read_obj_loop alloc f 0 r.1 [] k r.2
  termination_by structural fuel

def read_obj_loop (alloc : Nat → Bool) (fuel i len : Nat)
    (entries : List (List Nat × JValue)) (k : Nat) (b : Buffer) : DRes :=
  if i < len then
    match fuel with
    | 0 => .fuel
    | f + 1 =>
      let rk := read_raw_string b
      match read_value alloc f k rk.2 with
      | .ok v b' k' =>
        read_obj_loop alloc f ((i + 1) % M32) len
          (if alloc k' then objSet entries rk.1 v else entries) (k' + 1) b'
      | .null => .null
      | .fuel => .fuel
  else .ok (.object entries) b k
  termination_by structural fuel

end

/-- `bos_deserialize`: init the cursor from the header; sizes below 5 are
rejected with an error (NULL), otherwise read one value. -/
def bos_deserialize (alloc : Nat → Bool) (fuel : Nat) (data : List Nat) : DRes :=
  let b := buffer_init data
  if b.size < 5 then .null else read_value alloc fuel 0 b

/-- `bos_sizeof`: the 4-byte little-endian header, with no validation. -/
def bos_sizeof (data : List Nat) : Nat :=
  leVal (bytesAt data 0 4)

/-! ### Validator -/

/-- `validate_read`: bounds-check then advance.  `amount` is an
`unsigned int` parameter, so the 64-bit argument is truncated mod 2^32 at
the call, and `read + amount` is a wrapping 32-bit addition.  Returns the
advanced buffer on TRUE; on FALSE every caller discards the state. -/
def validate_read (b : Buffer) (amount : Nat) : Option Buffer :=
  let amt := amount % M32
  if (b.read + amt) % M32 ≤ b.size then
    some { b with read := (b.read + amt) % M32 }
  else
    none

/-- `validate_read_only`: the same bounds check without advancing. -/
def validate_read_only (b : Buffer) (amount : Nat) : Bool :=
  (b.read + amount % M32) % M32 ≤ b.size

/-- `validate_uvarint`: bounds-checked variant of `read_uvarint`; `none`
is the C FALSE (every caller then discards the buffer state). -/
def validate_uvarint (b : Buffer) : Option (Nat × Buffer) :=
  if validate_read_only b 1 then
    let r := read_buffer_n b 1
    let t := leVal r.1
    if t = 255 then
      if validate_read_only r.2 8 then
        let r8 := read_buffer_n r.2 8
        some (leVal r8.1, r8.2)
      else none
    else if t = 254 then
      if validate_read_only r.2 4 then
        let r4 := read_buffer_n r.2 4
        some (leVal r4.1, r4.2)
      else none
    else if t = 253 then
      if validate_read_only r.2 2 then
        let r2 := read_buffer_n r.2 2
        some (leVal r2.1, r2.2)
      else none
    else some (t, r.2)
  else none

/-- `validate_string`: varint length, then a bounds-checked skip of
`sizeof(char) * len` bytes (truncated to 32 bits by `validate_read`). -/
def validate_string (b : Buffer) : Option Buffer :=
  match validate_uvarint b with
  | none => none
  | some (len, b') => if len > 0 then validate_read b' len else some b'

/-- `validate_bytes`: identical to `validate_string`. -/
def validate_bytes (b : Buffer) : Option Buffer :=
  match validate_uvarint b with
  | none => none
  | some (len, b') => if len > 0 then validate_read b' len else some b'

/-- Result of a recursive validator function: TRUE with the advanced
buffer, FALSE (state discarded by all callers), or fuel exhaustion. -/
inductive VRes where
  | ok (b : Buffer)
  | bad
  | fuel
deriving DecidableEq, Repr

/-- Lift a bounds-checked step to a validator result. -/
def vres : Option Buffer → VRes
  | some b => .ok b
  | none => .bad

mutual

/-- `validate_value`: bounds-checked tag read, then the switch; tags
outside 0..15 are rejected. -/
def validate_value (fuel : Nat) (b : Buffer) : VRes :=
  match fuel with
  | 0 => .fuel
  | f + 1 =>
    if validate_read_only b 1 then
      let r := read_buffer_n b 1
      match leVal r.1 with
      | 0 => .ok r.2
      | 1 => vres (validate_read r.2 1)
      | 2 => vres (validate_read r.2 1)
      | 3 => vres (validate_read r.2 2)
      | 4 => vres (validate_read r.2 4)
      | 5 => vres (validate_read r.2 8)
      | 6 => vres (validate_read r.2 1)
      | 7 => vres (validate_read r.2 2)
      | 8 => vres (validate_read r.2 4)
      | 9 => vres (validate_read r.2 8)
      | 10 => vres (validate_read r.2 4)
      | 11 => vres (validate_read r.2 8)
      | 12 => vres (validate_string r.2)
      | 13 => vres (validate_bytes r.2)
      | 14 => validate_array f r.2
      | 15 => validate_obj f r.2
      | _ => .bad
    else .bad
  termination_by structural fuel

/-- `validate_array`: varint count then that many validated values.  The
loop counter is a `uint64_t` and cannot wrap before reaching `len`. -/
def validate_array (fuel : Nat) (b : Buffer) : VRes :=
  match fuel with
  | 0 => .fuel
  | f + 1 =>
    match validate_uvarint b with
    | none => .bad
    | some (len, b') => validate_arr_loop f 0 len b'
  termination_by structural fuel

def validate_arr_loop (fuel i len : Nat) (b : Buffer) : VRes :=
  if i < len then
    match fuel with
    | 0 => .fuel
    | f + 1 =>
      match validate_value f b with
      | .ok b' => validate_arr_loop f (i + 1) len b'
      | .bad => .bad
      | .fuel => .fuel
  else .ok b
  termination_by structural fuel

/-- `validate_obj`: varint count then that many (string, value) pairs. -/
def validate_obj (fuel : Nat) (b : Buffer) : VRes :=
  match fuel with
  | 0 => .fuel
  | f + 1 =>
    match validate_uvarint b with
    | none => .bad
    | some (len, b') => validate_obj_loop f 0 len b'
  termination_by structural fuel

def validate_obj_loop (fuel i len : Nat) (b : Buffer) : VRes :=
  if i < len then
    match fuel with
    | 0 => .fuel
    | f + 1 =>
      match validate_string b with
      | none => .bad
      | some b1 =>
        match validate_value f b1 with
        | .ok b' => validate_obj_loop f (i + 1) len b'
        | .bad => .bad
        | .fuel => .fuel
  else .ok b
  termination_by structural fuel

end

/-- `bos_validate(data, size)`: reject sizes below 5, a header below 5, or
a header exceeding the provided size, then walk the value.  `some r` is
the C TRUE/FALSE verdict; `none` means the walk exhausted the fuel (the C
code never returns in that case). -/
def bos_validate (data : List Nat) (size fuel : Nat) : Option Bool :=
  if size < 5 then some false
  else
    let data_size := leVal (bytesAt data 0 4)
    if data_size < 5 ∨ size < data_size then some false
    else
      match validate_value fuel (buffer_init data) with
      | .ok _ => some true
      | .bad => some false
      | .fuel => none

/-- The allocation oracle that always fails (used to exercise the
value-model failure paths). -/
def allocFail : Nat → Bool := fun _ => false

/-! ### Valid encoded buffers (modelled from the spec)

Modelled from the spec: the matching encoder/serializer is not part of
src/, so "valid encoded buffer" is formalised by an encoder following the
wire format of spec sections 3, 4.2 and 6: a value is a tag byte 0..15
followed by its payload; varints use the minimal width; the envelope is a
4-byte little-endian total size including itself. -/

/-- Abstract values to be encoded, one constructor per wire tag.  Float
payloads are kept as raw bytes (their numeric meaning is irrelevant to
the wire format). -/
inductive BValue where
  | null
  | boolean (b : Bool)
  | int8 (v : Int)
  | int16 (v : Int)
  | int32 (v : Int)
  | int64 (v : Int)
  | uint8 (v : Nat)
  | uint16 (v : Nat)
  | uint32 (v : Nat)
  | uint64 (v : Nat)
  | float32 (p : List Nat)
  | float64 (p : List Nat)
  | str (s : List Nat)
  | bytes (s : List Nat)
  | array (xs : List BValue)
  | obj (es : List (List Nat × BValue))

/-- `n` little-endian bytes of `v`. -/
def leBytes : Nat → Nat → List Nat
  | 0, _ => []
  | n + 1, v => v % 256 :: leBytes n (v / 256)

/-- Minimal-width varint encoding (spec section 4.2). -/
def encodeUvarint (v : Nat) : List Nat :=
  if v ≤ 252 then [v]
  else if v < 65536 then 253 :: leBytes 2 v
  else if v < 4294967296 then 254 :: leBytes 4 v
  else 255 :: leBytes 8 v

/-- `n`-byte little-endian two's-complement encoding of an integer. -/
def intLE (n : Nat) (v : Int) : List Nat :=
  leBytes n (v % ((2 : Int) ^ (8 * n))).toNat

mutual

def encodeValue : BValue → List Nat
  | .null => [0]
  | .boolean b => [1, if b then 1 else 0]
  | .int8 v => 2 :: intLE 1 v
  | .int16 v => 3 :: intLE 2 v
  | .int32 v => 4 :: intLE 4 v
  | .int64 v => 5 :: intLE 8 v
  | .uint8 v => 6 :: leBytes 1 v
  | .uint16 v => 7 :: leBytes 2 v
  | .uint32 v => 8 :: leBytes 4 v
  | .uint64 v => 9 :: leBytes 8 v
  | .float32 p => 10 :: p
  | .float64 p => 11 :: p
  | .str s => 12 :: (encodeUvarint s.length ++ s)
  | .bytes s => 13 :: (encodeUvarint s.length ++ s)
  | .array xs => 14 :: (encodeUvarint xs.length ++ encodeL xs)
  | .obj es => 15 :: (encodeUvarint es.length ++ encodeE es)

def encodeL : List BValue → List Nat
  | [] => []
  | c :: cs => encodeValue c ++ encodeL cs

def encodeE : List (List Nat × BValue) → List Nat
  | [] => []
  | e :: es => (encodeUvarint e.1.length ++ e.1 ++ encodeValue e.2) ++ encodeE es

end

/-- The complete encoded buffer: 4-byte envelope then the value. -/
def encodeTop (v : BValue) : List Nat :=
  leBytes 4 (4 + (encodeValue v).length) ++ encodeValue v

mutual

/-- Well-formedness of an abstract value: payload bytes are bytes, float
payloads have the exact wire width, integers are in range. -/
def wfb : BValue → Bool
  | .null => true
  | .boolean _ => true
  | .int8 v => decide (-128 ≤ v ∧ v < 128)
  | .int16 v => decide (-32768 ≤ v ∧ v < 32768)
  | .int32 v => decide (-2147483648 ≤ v ∧ v < 2147483648)
  | .int64 v => decide (-9223372036854775808 ≤ v ∧ v < 9223372036854775808)
  | .uint8 v => decide (v < 256)
  | .uint16 v => decide (v < 65536)
  | .uint32 v => decide (v < 4294967296)
  | .uint64 v => decide (v < 18446744073709551616)
  | .float32 p => p.length = 4 && p.all (· < 256)
  | .float64 p => p.length = 8 && p.all (· < 256)
  | .str s => s.all (· < 256)
  | .bytes s => s.all (· < 256)
  | .array xs => wfbL xs
  | .obj es => wfbE es

def wfbL : List BValue → Bool
  | [] => true
  | c :: cs => wfb c && wfbL cs

def wfbE : List (List Nat × BValue) → Bool
  | [] => true
  | e :: es => e.1.all (· < 256) && wfb e.2 && wfbE es

end

mutual

/-- Fuel sufficient for both walkers on an encoded value. -/
def fuelNeed : BValue → Nat
  | .array xs => 3 + fuelNeedL xs
  | .obj es => 3 + fuelNeedE es
  | _ => 2

def fuelNeedL : List BValue → Nat
  | [] => 0
  | c :: cs => 1 + fuelNeed c + fuelNeedL cs

def fuelNeedE : List (List Nat × BValue) → Nat
  | [] => 0
  | e :: es => 1 + fuelNeed e.2 + fuelNeedE es

end

/-- The 14-byte buffer whose string declares a 64-bit length 2^64 - 4:
header 14, tag 0x0C (string), varint flag 0xFF, then
FC FF FF FF FF FF FF FF. -/
def wrapBuf : List Nat :=
  [14, 0, 0, 0, 12, 255, 252, 255, 255, 255, 255, 255, 255, 255]

/-- The 16-byte buffer on which the validator recurses forever: header 16,
array of 2 elements; element 1 is a string whose declared length makes the
truncated 32-bit bounds check wrap `read` back to 4, so element 2 starts
the identical array walk again.  Bytes: 0E 02 0C FE F8 FF FF FF + padding. -/
def cycleBuf : List Nat :=
  [16, 0, 0, 0, 14, 2, 12, 254, 248, 255, 255, 255, 0, 0, 0, 0]

/-! ## Generic helper lemmas -/

theorem leBytes_length (n v : Nat) : (leBytes n v).length = n := by
  induction n generalizing v with
  | zero => rfl
  | succ n ih => simp [leBytes, ih]

theorem leVal_leBytes (n v : Nat) (h : v < 256 ^ n) : leVal (leBytes n v) = v := by
  induction n generalizing v with
  | zero => simp only [pow_zero, Nat.lt_one_iff] at h; simp [leBytes, leVal, h]
  | succ n ih =>
    have hd : v / 256 < 256 ^ n := by
      rw [Nat.div_lt_iff_lt_mul (by norm_num)]
      calc v < 256 ^ (n + 1) := h
        _ = 256 ^ n * 256 := by ring
    simp only [leBytes, leVal, ih _ hd]
    omega

theorem getD_mid (pre l post : List Nat) (i : Nat) (h : i < l.length) :
    (pre ++ l ++ post).getD (pre.length + i) 0 = l.getD i 0 := by
  rw [List.append_assoc, List.getD_append_right _ _ _ _ (by omega),
    Nat.add_sub_cancel_left]
  exact List.getD_append _ _ _ _ h

theorem bytesAt_take (pre l post : List Nat) (n : Nat) (h : n ≤ l.length) :
    bytesAt (pre ++ l ++ post) pre.length n = l.take n := by
  induction n generalizing pre l with
  | zero => simp [bytesAt]
  | succ n ih =>
    cases l with
    | nil => simp at h
    | cons x l =>
      simp only [bytesAt, List.take_succ_cons]
      congr 1
      · simpa using getD_mid pre (x :: l) post 0 (by simp)
      · have hassoc : pre ++ (x :: l) ++ post = (pre ++ [x]) ++ l ++ post := by simp
        have hlen : pre.length + 1 = (pre ++ [x]).length := by simp
        rw [hassoc, hlen, ih (pre ++ [x]) l (by simpa using h)]

theorem bytesAt_exact (pre l post : List Nat) :
    bytesAt (pre ++ l ++ post) pre.length l.length = l := by
  simpa using bytesAt_take pre l post l.length le_rfl

theorem read_buffer_n_eq (pre l post : List Nat) (sz n : Nat) (hn : n ≤ l.length)
    (hm : pre.length + n < M32) :
    read_buffer_n ⟨pre ++ l ++ post, pre.length, sz⟩ n
      = (l.take n, ⟨pre ++ l ++ post, pre.length + n, sz⟩) := by
  simp only [read_buffer_n, bytesAt_take pre l post n hn, M32] at *
  congr 2
  omega

/-! ## Claim theorems -/

/-- C4: the varint decoder maps a first byte t in [0, 0xFC] to t itself
(1 byte), 0xFD to the next 2 bytes little-endian, 0xFE to the next 4, and
0xFF to the next 8; the validator's varint decoder agrees with it exactly
whenever it succeeds; and the concrete boundary decodings hold
(252 from FC; 253 from FD FD 00; 65535/65536 and 4294967295/4294967296
at the width crossings). -/
theorem c4_varint_mapping :
    (∀ b : Buffer, b.read + 9 < M32 →
      (b.data.getD b.read 0 ≤ 252 →
        read_uvarint b = (b.data.getD b.read 0, { b with read := b.read + 1 })) ∧
      (b.data.getD b.read 0 = 253 →
        read_uvarint b
          = (leVal (bytesAt b.data (b.read + 1) 2), { b with read := b.read + 3 })) ∧
      (b.data.getD b.read 0 = 254 →
        read_uvarint b
          = (leVal (bytesAt b.data (b.read + 1) 4), { b with read := b.read + 5 })) ∧
      (b.data.getD b.read 0 = 255 →
        read_uvarint b
          = (leVal (bytesAt b.data (b.read + 1) 8), { b with read := b.read + 9 }))) ∧
    (∀ b v b', validate_uvarint b = some (v, b') → read_uvarint b = (v, b')) ∧
    (read_uvarint ⟨[252], 0, 9⟩).1 = 252 ∧
    (read_uvarint ⟨[253, 253, 0], 0, 9⟩).1 = 253 ∧
    (read_uvarint ⟨[253, 255, 255], 0, 9⟩).1 = 65535 ∧
    (read_uvarint ⟨[254, 0, 0, 1, 0], 0, 9⟩).1 = 65536 ∧
    (read_uvarint ⟨[254, 255, 255, 255, 255], 0, 9⟩).1 = 4294967295 ∧
    (read_uvarint ⟨[255, 0, 0, 0, 0, 1, 0, 0, 0], 0, 9⟩).1 = 4294967296 := by
  refine ⟨?_, ?_, rfl, rfl, rfl, rfl, rfl, rfl⟩
  · intro b hb
    have hb' : b.read + 9 < 4294967296 := by simpa [M32] using hb
    have ht : leVal (bytesAt b.data b.read 1) = b.data.getD b.read 0 := by
      simp [bytesAt, leVal]
    have hr1 : (b.read + 1 % M32) % M32 = b.read + 1 := by simp [M32]; omega
    have hr2 : (b.read + 1 + 2 % M32) % M32 = b.read + 3 := by simp [M32]; omega
    have hr4 : (b.read + 1 + 4 % M32) % M32 = b.read + 5 := by simp [M32]; omega
    have hr8 : (b.read + 1 + 8 % M32) % M32 = b.read + 9 := by simp [M32]; omega
    refine ⟨?_, ?_, ?_, ?_⟩
    · intro h
      simp only [read_uvarint, read_buffer_n, ht, hr1]
      rw [if_neg (by omega), if_neg (by omega), if_neg (by omega)]
    · intro h
      simp only [read_uvarint, read_buffer_n, ht, hr1]
      rw [if_neg (by omega), if_neg (by omega), if_pos (by omega), hr2]
    · intro h
      simp only [read_uvarint, read_buffer_n, ht, hr1]
      rw [if_neg (by omega), if_pos (by omega), hr4]
    · intro h
      simp only [read_uvarint, read_buffer_n, ht, hr1]
      rw [if_pos (by omega), hr8]
  · intro b v b' h
    simp only [validate_uvarint] at h
    split at h
    · simp only [read_uvarint]
      split_ifs at h with h1 h2 h3 <;> split_ifs <;> simp_all
    · exact absurd h (by simp)

/-- Witness for C4 at the 2-byte width: FD 05 01 decodes to 261. -/
theorem c4_varint_mapping_witness :
    ((⟨[253, 5, 1], 0, 0⟩ : Buffer).read + 9 < M32 ∧
      ([253, 5, 1] : List Nat).getD 0 0 = 253) ∧
    read_uvarint ⟨[253, 5, 1], 0, 0⟩ = (261, ⟨[253, 5, 1], 3, 0⟩) := by
  refine ⟨⟨by decide, rfl⟩, ?_⟩
  exact (c4_varint_mapping.1 ⟨[253, 5, 1], 0, 0⟩ (by decide)).2.1 rfl

theorem read_uvarint_read_lt (b : Buffer) : (read_uvarint b).2.read < M32 := by
  have hM : 0 < M32 := by simp [M32]
  simp only [read_uvarint, read_buffer_n]
  split_ifs <;> exact Nat.mod_lt _ hM

/-- C9: a string or bytes value whose decoded varint length is 0 yields an
empty value and consumes no byte beyond the varint itself: the resulting
cursor is exactly the post-varint cursor. -/
theorem c9_zero_length (b b' : Buffer) (k : Nat) (h : read_uvarint b = (0, b')) :
    read_raw_string b = ([], b') ∧
    read_string allocOk k b = .ok (.str []) b' (k + 1) ∧
    read_bytes allocOk k b = .ok (.bytes []) b' (k + 1) := by
  have hlt : b'.read < M32 := by
    have h2 := read_uvarint_read_lt b
    rw [h] at h2
    exact h2
  have h0 : read_buffer_n b' 0 = ([], b') := by
    simp [read_buffer_n, bytesAt, Nat.mod_eq_of_lt hlt]
  refine ⟨?_, ?_, ?_⟩
  · simp [read_raw_string, h]
  · simp [read_string, read_raw_string, h, json_string_f, allocOk]
  · simp [read_bytes, h, h0, json_bytes_f, allocOk]

/-- Witness for C9: length varint 00 at the cursor. -/
theorem c9_zero_length_witness :
    read_uvarint ⟨[0], 0, 5⟩ = (0, ⟨[0], 1, 5⟩) ∧
    read_raw_string ⟨[0], 0, 5⟩ = ([], ⟨[0], 1, 5⟩) ∧
    read_string allocOk 3 ⟨[0], 0, 5⟩ = .ok (.str []) ⟨[0], 1, 5⟩ 4 ∧
    read_bytes allocOk 3 ⟨[0], 0, 5⟩ = .ok (.bytes []) ⟨[0], 1, 5⟩ 4 :=
  ⟨rfl, (c9_zero_length ⟨[0], 0, 5⟩ ⟨[0], 1, 5⟩ 3 rfl).1,
    (c9_zero_length ⟨[0], 0, 5⟩ ⟨[0], 1, 5⟩ 3 rfl).2.1,
    (c9_zero_length ⟨[0], 0, 5⟩ ⟨[0], 1, 5⟩ 3 rfl).2.2⟩

/-- C5: bos_validate returns false, without walking the value (hence for
any fuel, equal to the zero-fuel run), whenever the provided byte count is
below 5, the header value is below 5, or the header exceeds the provided
count; in particular 4 provided bytes with header 5 are rejected. -/
theorem c5_header_checks (data : List Nat) (size fuel : Nat) :
    (size < 5 ∨ leVal (bytesAt data 0 4) < 5 ∨ size < leVal (bytesAt data 0 4) →
      bos_validate data size fuel = some false ∧
      bos_validate data size fuel = bos_validate data size 0) ∧
    bos_validate [5, 0, 0, 0] 4 fuel = some false := by
  constructor
  · intro h
    simp only [bos_validate]
    split_ifs with h1 h2
    · exact ⟨rfl, rfl⟩
    · exact ⟨rfl, rfl⟩
    · omega
  · rfl

/-- Witness for C5: the 4-byte buffer with header 5. -/
theorem c5_header_checks_witness :
    (4 < 5 ∨ leVal (bytesAt [5, 0, 0, 0] 0 4) < 5 ∨
      4 < leVal (bytesAt [5, 0, 0, 0] 0 4)) ∧
    bos_validate [5, 0, 0, 0] 4 7 = some false :=
  ⟨Or.inl (by decide), ((c5_header_checks [5, 0, 0, 0] 4 7).1 (Or.inl (by decide))).1⟩

/-- C1 is refuted by this theorem: on `wrapBuf` (declared size 14) the
string at offset 4 declares a payload length of 2^64 - 4, so reading it
would run far past the declared size, yet `bos_validate` returns true:
the `unsigned int amount` parameter of `validate_read` truncates the
length to 0xFFFFFFFC and the 32-bit addition `read + amount` wraps to 10,
which passes the `<= size` check. -/
theorem c1_wrap_accepted :
    bos_validate wrapBuf 14 1 = some true ∧
    (read_uvarint ⟨wrapBuf, 5, 14⟩).1 = 18446744073709551612 ∧
    14 < (read_uvarint ⟨wrapBuf, 5, 14⟩).2.read + (read_uvarint ⟨wrapBuf, 5, 14⟩).1 := by
  refine ⟨by decide, by decide, by decide⟩

/-- C7: object decoding applies one set-key operation per entry in encoded
order with last-write-wins semantics (`objSet` then `objLookup` returns
the latest value for a key); concretely, decoding an object with two
entries keyed "a" (values null then true) yields the single entry
("a", true), and the same buffer also passes validation (duplicates are
not rejected). -/
theorem c7_last_write_wins :
    (∀ es key v, objLookup (objSet es key v) key = some v) ∧
    bos_deserialize allocOk 20 [13, 0, 0, 0, 15, 2, 1, 97, 0, 1, 97, 1, 1]
      = .ok (.object [([97], .boolean true)])
          ⟨[13, 0, 0, 0, 15, 2, 1, 97, 0, 1, 97, 1, 1], 13, 13⟩ 2 ∧
    bos_validate [13, 0, 0, 0, 15, 2, 1, 97, 0, 1, 97, 1, 1] 13 20 = some true := by
  refine ⟨?_, rfl, rfl⟩
  intro es key v
  induction es with
  | nil => simp [objSet, objLookup]
  | cons e es ih =>
    by_cases h : e.1 = key
    · simp [objSet, objLookup, h]
    · simp [objSet, objLookup, h, ih]

/-- C8: if reading a child value inside an array or object fails (returns
the C NULL), the enclosing container loop returns NULL immediately, with
no partial container value; and the failure propagates through
`read_array`/`read_obj`/`read_value` unchanged, hence across any nesting
depth. -/
theorem c8_child_failure_propagates (alloc : Nat → Bool) (f i len k : Nat)
    (acc : List JValue) (entries : List (List Nat × JValue)) (b : Buffer) :
    (i < len → read_value alloc f k b = .null →
      read_array_loop alloc (f + 1) i len acc k b = .null) ∧
    (i < len → read_value alloc f k (read_raw_string b).2 = .null →
      read_obj_loop alloc (f + 1) i len entries k b = .null) ∧
    (read_array_loop alloc f 0 (read_uvarint b).1 [] k (read_uvarint b).2 = .null →
      read_array alloc (f + 1) k b = .null) ∧
    (read_obj_loop alloc f 0 (read_uvarint b).1 [] k (read_uvarint b).2 = .null →
      read_obj alloc (f + 1) k b = .null) ∧
    (read_data alloc f (read_data_type b).1 k (read_data_type b).2 = .null →
      read_value alloc (f + 1) k b = .null) := by
  refine ⟨?_, ?_, ?_, ?_, ?_⟩
  · intro hl hn
    rw [read_array_loop, if_pos hl]
    simp only [hn]
  · intro hl hn
    rw [read_obj_loop, if_pos hl]
    simp only [hn]
  · intro h
    rw [read_array]
    exact h
  · intro h
    rw [read_obj]
    exact h
  · intro h
    rw [read_value]
    exact h

/-- C3: whenever the top-level tag byte (offset 4) is outside 0..15,
`bos_validate` returns false (for every fuel, and also when the header
checks already fail), while `bos_deserialize` permissively decodes the
value to Null and succeeds whenever the header size is at least 5. -/
theorem c3_unknown_tag (data : List Nat) (size fuel : Nat)
    (h : 15 < data.getD 4 0) :
    bos_validate data size (fuel + 1) = some false ∧
    (5 ≤ leVal (bytesAt data 0 4) →
      bos_deserialize allocOk (fuel + 2) data
        = .ok .null ⟨data, 5, leVal (bytesAt data 0 4)⟩ 0) := by
  constructor
  · simp only [bos_validate]
    split_ifs with h1 h2
    · rfl
    · rfl
    · have hds : 5 ≤ leVal (bytesAt data 0 4) := by omega
      have ht : leVal (bytesAt data 4 1) = data.getD 4 0 := by
        simp [bytesAt, leVal]
      have hro : validate_read_only ⟨data, 4, leVal (bytesAt data 0 4)⟩ 1 = true := by
        simp only [validate_read_only, M32, decide_eq_true_eq]
        omega
      obtain ⟨m, hm⟩ : ∃ m, data.getD 4 0 = m + 16 := ⟨data.getD 4 0 - 16, by omega⟩
      have hbad : validate_value (fuel + 1) (buffer_init data) = .bad := by
        simp only [buffer_init, validate_value, read_buffer_n, hro, if_true, ht, hm]
      rw [hbad]
  · intro h5
    have hne : ¬ (buffer_init data).size < 5 := by
      simp only [buffer_init]
      omega
    have ht4 : leVal (bytesAt data 4 1) = data.getD 4 0 := by
      simp [bytesAt, leVal]
    have hdt : read_data_type (buffer_init data)
        = (0, ⟨data, 5, leVal (bytesAt data 0 4)⟩) := by
      simp only [read_data_type, read_buffer_n, buffer_init, ht4]
      rw [if_pos h]
      simp [M32]
    simp only [bos_deserialize]
    rw [if_neg hne]
    simp only [read_value, hdt, read_data]

/-- Witness for C3: the 5-byte buffer 05 00 00 00 10 (tag 0x10). -/
theorem c3_unknown_tag_witness :
    (15 < ([5, 0, 0, 0, 16] : List Nat).getD 4 0 ∧
      5 ≤ leVal (bytesAt [5, 0, 0, 0, 16] 0 4)) ∧
    bos_validate [5, 0, 0, 0, 16] 5 3 = some false ∧
    bos_deserialize allocOk 4 [5, 0, 0, 0, 16] = .ok .null ⟨[5, 0, 0, 0, 16], 5, 5⟩ 0 :=
  ⟨⟨by decide, by decide⟩,
    (c3_unknown_tag [5, 0, 0, 0, 16] 5 2 (by decide)).1,
    (c3_unknown_tag [5, 0, 0, 0, 16] 5 2 (by decide)).2 (by decide)⟩

/-- Witness for C8: with an always-failing allocator, the int8 child at
offset 6 of an array buffer fails, and the array loop returns NULL. -/
theorem c8_child_failure_propagates_witness :
    (0 < 1 ∧ read_value allocFail 2 0 ⟨[8, 0, 0, 0, 14, 1, 2, 5], 6, 8⟩ = .null) ∧
    read_array_loop allocFail 3 0 1 [] 0 ⟨[8, 0, 0, 0, 14, 1, 2, 5], 6, 8⟩ = .null :=
  ⟨⟨by decide, rfl⟩,
    (c8_child_failure_propagates allocFail 2 0 1 0 [] []
      ⟨[8, 0, 0, 0, 14, 1, 2, 5], 6, 8⟩).1 (by decide) rfl⟩

/-- On `cycleBuf` the validator walk returns to the identical cursor state
(read = 4) with 4 fewer fuel ticks: the array's first element is a string
whose truncated 32-bit length check wraps `read` from 16 back to 4, so
the second element restarts the same array walk. -/
theorem validate_value_cycle (f : Nat) :
    validate_value (f + 4) ⟨cycleBuf, 4, 16⟩ = validate_value f ⟨cycleBuf, 4, 16⟩ := by
  show (match validate_value f ⟨cycleBuf, 4, 16⟩ with
        | .ok b' => validate_arr_loop f 2 2 b'
        | .bad => VRes.bad
        | .fuel => VRes.fuel)
      = validate_value f ⟨cycleBuf, 4, 16⟩
  cases validate_value f ⟨cycleBuf, 4, 16⟩ with
  | ok b' =>
    show validate_arr_loop f 2 2 b' = VRes.ok b'
    rw [validate_arr_loop.eq_def]
    simp
  | bad => rfl
  | fuel => rfl

/-- C10 is refuted by this theorem: on the 16-byte buffer `cycleBuf` the
validator never returns for any fuel (in C: unbounded recursion and a
stack overflow), because the wrapped bounds check of the string element
moves the cursor backwards, so the byte budget does not decrease between
recursive `validate_value` calls. -/
theorem c10_validator_divergence : ∀ fuel, bos_validate cycleBuf 16 fuel = none := by
  have hvv : ∀ f, validate_value f ⟨cycleBuf, 4, 16⟩ = .fuel := by
    intro f
    induction f using Nat.strong_induction_on with
    | _ f ih =>
      rcases f with _ | (_ | (_ | (_ | g)))
      · rfl
      · rfl
      · rfl
      · rfl
      · show validate_value (g + 4) ⟨cycleBuf, 4, 16⟩ = VRes.fuel
        rw [validate_value_cycle g, ih g (by omega)]
  intro fuel
  show (match validate_value fuel (buffer_init cycleBuf) with
        | .ok _ => some true
        | .bad => some false
        | .fuel => none)
      = none
  rw [show buffer_init cycleBuf = ⟨cycleBuf, 4, 16⟩ from rfl, hvv fuel]

/-! ### The validator cursor invariant (C6) -/

theorem vres_ok {o : Option Buffer} {b' : Buffer} (h : vres o = .ok b') :
    o = some b' := by
  cases o with
  | none => simp [vres] at h
  | some x =>
    simp only [vres, VRes.ok.injEq] at h
    rw [h]

theorem validate_read_only_le (b : Buffer) (n : Nat)
    (h : validate_read_only b n = true) : (b.read + n % M32) % M32 ≤ b.size :=
  of_decide_eq_true h

theorem validate_read_le (b : Buffer) (n : Nat) (b' : Buffer)
    (h : validate_read b n = some b') : b'.read ≤ b'.size := by
  simp only [validate_read] at h
  split_ifs at h with hc
  obtain rfl := Option.some.inj h
  exact hc

theorem validate_uvarint_le (b : Buffer) (v : Nat) (b' : Buffer)
    (h : validate_uvarint b = some (v, b')) : b'.read ≤ b'.size := by
  simp only [validate_uvarint, read_buffer_n] at h
  split_ifs at h with h1 h2 h3 h4 h5 h6 h7 <;>
    (simp only [Option.some.injEq, Prod.mk.injEq] at h
     obtain ⟨hv, rfl⟩ := h
     simp only [validate_read_only, decide_eq_true_eq, M32] at *
     omega)

theorem validate_string_le (b b' : Buffer) (h : validate_string b = some b') :
    b'.read ≤ b'.size := by
  rcases huv : validate_uvarint b with _ | ⟨len, b1⟩
  · simp [validate_string, huv] at h
  · simp only [validate_string, huv] at h
    split_ifs at h with hl
    · exact validate_read_le _ _ _ h
    · obtain rfl := Option.some.inj h
      exact validate_uvarint_le _ _ _ huv

theorem validate_bytes_le (b b' : Buffer) (h : validate_bytes b = some b') :
    b'.read ≤ b'.size := by
  rcases huv : validate_uvarint b with _ | ⟨len, b1⟩
  · simp [validate_bytes, huv] at h
  · simp only [validate_bytes, huv] at h
    split_ifs at h with hl
    · exact validate_read_le _ _ _ h
    · obtain rfl := Option.some.inj h
      exact validate_uvarint_le _ _ _ huv

/-! Unfolding equations of the recursive validator at successor fuel
(each verified definitionally against the definitions). -/

theorem validate_value_succ (f : Nat) (b : Buffer) :
    validate_value (f + 1) b
      = (if validate_read_only b 1 then
          match leVal (read_buffer_n b 1).1 with
          | 0 => .ok (read_buffer_n b 1).2
          | 1 => vres (validate_read (read_buffer_n b 1).2 1)
          | 2 => vres (validate_read (read_buffer_n b 1).2 1)
          | 3 => vres (validate_read (read_buffer_n b 1).2 2)
          | 4 => vres (validate_read (read_buffer_n b 1).2 4)
          | 5 => vres (validate_read (read_buffer_n b 1).2 8)
          | 6 => vres (validate_read (read_buffer_n b 1).2 1)
          | 7 => vres (validate_read (read_buffer_n b 1).2 2)
          | 8 => vres (validate_read (read_buffer_n b 1).2 4)
          | 9 => vres (validate_read (read_buffer_n b 1).2 8)
          | 10 => vres (validate_read (read_buffer_n b 1).2 4)
          | 11 => vres (validate_read (read_buffer_n b 1).2 8)
          | 12 => vres (validate_string (read_buffer_n b 1).2)
          | 13 => vres (validate_bytes (read_buffer_n b 1).2)
          | 14 => validate_array f (read_buffer_n b 1).2
          | 15 => validate_obj f (read_buffer_n b 1).2
          | _ => .bad
        else .bad) := rfl

theorem validate_array_succ (f : Nat) (b : Buffer) :
    validate_array (f + 1) b
      = (match validate_uvarint b with
         | none => .bad
         | some (len, b') => validate_arr_loop f 0 len b') := rfl

theorem validate_obj_succ (f : Nat) (b : Buffer) :
    validate_obj (f + 1) b
      = (match validate_uvarint b with
         | none => .bad
         | some (len, b') => validate_obj_loop f 0 len b') := rfl

theorem validate_arr_loop_succ (f i len : Nat) (b : Buffer) (hi : i < len) :
    validate_arr_loop (f + 1) i len b
      = (match validate_value f b with
         | .ok b' => validate_arr_loop f (i + 1) len b'
         | .bad => .bad
         | .fuel => .fuel) := by
  rw [validate_arr_loop.eq_def, if_pos hi]

theorem validate_obj_loop_succ (f i len : Nat) (b : Buffer) (hi : i < len) :
    validate_obj_loop (f + 1) i len b
      = (match validate_string b with
         | none => .bad
         | some b1 =>
           match validate_value f b1 with
           | .ok b' => validate_obj_loop f (i + 1) len b'
           | .bad => .bad
           | .fuel => .fuel) := by
  rw [validate_obj_loop.eq_def, if_pos hi]

theorem validate_arr_loop_exit (fuel i len : Nat) (b : Buffer) (hi : ¬ i < len) :
    validate_arr_loop fuel i len b = .ok b := by
  rw [validate_arr_loop.eq_def, if_neg hi]

theorem validate_obj_loop_exit (fuel i len : Nat) (b : Buffer) (hi : ¬ i < len) :
    validate_obj_loop fuel i len b = .ok b := by
  rw [validate_obj_loop.eq_def, if_neg hi]

theorem validator_invariant (fuel : Nat) :
    (∀ b b', validate_value fuel b = .ok b' → b'.read ≤ b'.size) ∧
    (∀ b b', validate_array fuel b = .ok b' → b'.read ≤ b'.size) ∧
    (∀ b b', validate_obj fuel b = .ok b' → b'.read ≤ b'.size) ∧
    (∀ i len b b', b.read ≤ b.size →
      validate_arr_loop fuel i len b = .ok b' → b'.read ≤ b'.size) ∧
    (∀ i len b b', b.read ≤ b.size →
      validate_obj_loop fuel i len b = .ok b' → b'.read ≤ b'.size) := by
  induction fuel with
  | zero =>
    refine ⟨?_, ?_, ?_, ?_, ?_⟩
    · intro b b' h
      exact absurd h (by rw [validate_value.eq_def]; simp)
    · intro b b' h
      exact absurd h (by rw [validate_array.eq_def]; simp)
    · intro b b' h
      exact absurd h (by rw [validate_obj.eq_def]; simp)
    · intro i len b b' hb h
      rw [validate_arr_loop.eq_def] at h
      split_ifs at h with hc
      all_goals injection h with h
      all_goals subst h
      all_goals exact hb
    · intro i len b b' hb h
      rw [validate_obj_loop.eq_def] at h
      split_ifs at h with hc
      all_goals injection h with h
      all_goals subst h
      all_goals exact hb
  | succ f ih =>
    obtain ⟨ihv, iha, iho, ihal, ihol⟩ := ih
    have hloopa : ∀ i len b b', b.read ≤ b.size →
        validate_arr_loop (f + 1) i len b = .ok b' → b'.read ≤ b'.size := by
      intro i len b b' hb h
      by_cases hi : i < len
      · rw [validate_arr_loop_succ f i len b hi] at h
        rcases hv : validate_value f b with b1 | _ | _ <;> rw [hv] at h
        · exact ihal _ _ _ _ (ihv _ _ hv) h
        · simp at h
        · simp at h
      · rw [validate_arr_loop_exit _ _ _ _ hi] at h
        injection h with h
        subst h
        exact hb
    have hloopo : ∀ i len b b', b.read ≤ b.size →
        validate_obj_loop (f + 1) i len b = .ok b' → b'.read ≤ b'.size := by
      intro i len b b' hb h
      by_cases hi : i < len
      · rw [validate_obj_loop_succ f i len b hi] at h
        split at h
        · simp at h
        · split at h
          · rename_i b1 heqs b2 hv
            exact ihol _ _ _ _ (ihv _ _ hv) h
          · simp at h
          · simp at h
      · rw [validate_obj_loop_exit _ _ _ _ hi] at h
        injection h with h
        subst h
        exact hb
    have harr : ∀ b b', validate_array (f + 1) b = .ok b' → b'.read ≤ b'.size := by
      intro b b' h
      rw [validate_array_succ] at h
      rcases huv : validate_uvarint b with _ | ⟨len, b1⟩ <;> rw [huv] at h
      · simp at h
      · exact ihal _ _ _ _ (validate_uvarint_le _ _ _ huv) h
    have hobj : ∀ b b', validate_obj (f + 1) b = .ok b' → b'.read ≤ b'.size := by
      intro b b' h
      rw [validate_obj_succ] at h
      rcases huv : validate_uvarint b with _ | ⟨len, b1⟩ <;> rw [huv] at h
      · simp at h
      · exact ihol _ _ _ _ (validate_uvarint_le _ _ _ huv) h
    refine ⟨?_, harr, hobj, hloopa, hloopo⟩
    intro b b' h
    rw [validate_value_succ] at h
    split_ifs at h with hro
    · split at h
      case _ =>
        injection h with h
        subst h
        simpa [read_buffer_n] using validate_read_only_le b 1 hro
      all_goals first
        | exact validate_read_le _ _ _ (vres_ok h)
        | exact validate_string_le _ _ (vres_ok h)
        | exact validate_bytes_le _ _ (vres_ok h)
        | exact iha _ _ h
        | exact iho _ _ h
        | simp at h

/-- C6: the validator maintains the cursor invariant consumed <= size at
every step: header init starts at read = 4, and every validator operation
that returns true (fixed-width `validate_read`, varint reads, string and
bytes walks, and the recursive value/array/object walks at any fuel)
leaves a buffer whose `read` does not exceed its `size`. -/
theorem c6_cursor_invariant :
    (∀ data, (buffer_init data).read = 4) ∧
    (∀ b n b', validate_read b n = some b' → b'.read ≤ b'.size) ∧
    (∀ b v b', validate_uvarint b = some (v, b') → b'.read ≤ b'.size) ∧
    (∀ b b', validate_string b = some b' → b'.read ≤ b'.size) ∧
    (∀ b b', validate_bytes b = some b' → b'.read ≤ b'.size) ∧
    (∀ fuel b b', validate_value fuel b = .ok b' → b'.read ≤ b'.size) ∧
    (∀ fuel b b', validate_array fuel b = .ok b' → b'.read ≤ b'.size) ∧
    (∀ fuel b b', validate_obj fuel b = .ok b' → b'.read ≤ b'.size) :=
  ⟨fun _ => rfl, validate_read_le, validate_uvarint_le, validate_string_le,
    validate_bytes_le, fun fuel => (validator_invariant fuel).1,
    fun fuel => (validator_invariant fuel).2.1,
    fun fuel => (validator_invariant fuel).2.2.1⟩

/-- Witness for C6: a successful one-value validation ends with
read = 5 <= size = 5. -/
theorem c6_cursor_invariant_witness :
    validate_value 1 ⟨[5, 0, 0, 0, 0], 4, 5⟩ = .ok ⟨[5, 0, 0, 0, 0], 5, 5⟩ ∧
    (⟨[5, 0, 0, 0, 0], 5, 5⟩ : Buffer).read ≤ (⟨[5, 0, 0, 0, 0], 5, 5⟩ : Buffer).size :=
  ⟨rfl, c6_cursor_invariant.2.2.2.2.2.1 1 ⟨[5, 0, 0, 0, 0], 4, 5⟩ _ rfl⟩

/-! ### Validator/decoder completeness on encoded buffers (C2) -/

/-- `data` holds exactly the bytes `l` starting at position `p`. -/
def hasChunk (data : List Nat) (p : Nat) (l : List Nat) : Prop :=
  ∀ i, i < l.length → data.getD (p + i) 0 = l.getD i 0

theorem hasChunk_append (data : List Nat) (p : Nat) (l1 l2 : List Nat)
    (h : hasChunk data p (l1 ++ l2)) :
    hasChunk data p l1 ∧ hasChunk data (p + l1.length) l2 := by
  constructor
  · intro i hi
    rw [h i (by simp; omega), List.getD_append _ _ _ _ hi]
  · intro i hi
    have := h (l1.length + i) (by simp; omega)
    rw [List.getD_append_right _ _ _ _ (by omega), Nat.add_sub_cancel_left] at this
    rw [← this]
    ring_nf

theorem hasChunk_cons (data : List Nat) (p : Nat) (x : Nat) (l : List Nat)
    (h : hasChunk data p (x :: l)) :
    data.getD p 0 = x ∧ hasChunk data (p + 1) l := by
  have h2 := hasChunk_append data p [x] l (by simpa using h)
  refine ⟨?_, by simpa using h2.2⟩
  simpa using h2.1 0 (by simp)

theorem hasChunk_of_append (pre l : List Nat) (post : List Nat) :
    hasChunk (pre ++ l ++ post) pre.length l :=
  fun i hi => getD_mid pre l post i hi

theorem bytesAt_of_hasChunk (data : List Nat) (p : Nat) (l : List Nat)
    (h : hasChunk data p l) : bytesAt data p l.length = l := by
  induction l generalizing p with
  | nil => rfl
  | cons x l ih =>
    obtain ⟨hx, hl⟩ := hasChunk_cons data p x l h
    simp only [List.length_cons, bytesAt, hx, ih (p + 1) hl]

theorem read_buffer_chunk (data : List Nat) (p sz n : Nat) (l : List Nat)
    (h : hasChunk data p l) (hl : l.length = n) (hm : p + n < M32) :
    read_buffer_n ⟨data, p, sz⟩ n = (l, ⟨data, p + n, sz⟩) := by
  subst hl
  simp only [read_buffer_n, bytesAt_of_hasChunk data p l h]
  simp only [M32] at hm ⊢
  congr 2
  omega

theorem validate_read_exact (data : List Nat) (p sz n : Nat)
    (hle : p + n ≤ sz) (hM : p + n < M32) :
    validate_read ⟨data, p, sz⟩ n = some ⟨data, p + n, sz⟩ := by
  have hn : n % M32 = n := Nat.mod_eq_of_lt (by omega)
  have hs : (p + n) % M32 = p + n := Nat.mod_eq_of_lt hM
  simp [validate_read, hn, hs, hle]

theorem validate_read_only_true (data : List Nat) (p sz n : Nat)
    (hle : p + n ≤ sz) (hM : p + n < M32) :
    validate_read_only ⟨data, p, sz⟩ n = true := by
  have hn : n % M32 = n := Nat.mod_eq_of_lt (by omega)
  have hs : (p + n) % M32 = p + n := Nat.mod_eq_of_lt hM
  simp [validate_read_only, hn, hs, hle]

theorem encodeUvarint_length_pos (L : Nat) : 1 ≤ (encodeUvarint L).length := by
  simp only [encodeUvarint]
  split_ifs <;> simp [leBytes_length]

theorem enc_length_pos (v : BValue) : 1 ≤ (encodeValue v).length := by
  cases v <;> simp [encodeValue]

theorem encodeL_length_ge (xs : List BValue) : xs.length ≤ (encodeL xs).length := by
  induction xs with
  | nil => simp [encodeL]
  | cons c cs ih =>
    have := enc_length_pos c
    simp only [encodeL, List.length_append, List.length_cons]
    omega

theorem encodeE_length_ge (es : List (List Nat × BValue)) :
    es.length ≤ (encodeE es).length := by
  induction es with
  | nil => simp [encodeE]
  | cons e es ih =>
    have h1 := encodeUvarint_length_pos e.1.length
    simp only [encodeE, List.length_append, List.length_cons]
    omega

theorem read_uvarint_chunk (data : List Nat) (p sz L : Nat)
    (h : hasChunk data p (encodeUvarint L)) (hL : L < 18446744073709551616)
    (hM : p + (encodeUvarint L).length < M32) :
    read_uvarint ⟨data, p, sz⟩ = (L, ⟨data, p + (encodeUvarint L).length, sz⟩) := by
  by_cases h1 : L ≤ 252
  · have he : encodeUvarint L = [L] := by simp [encodeUvarint, h1]
    rw [he] at h hM ⊢
    obtain ⟨hx, -⟩ := hasChunk_cons data p L [] h
    have hr1 : read_buffer_n ⟨data, p, sz⟩ 1 = ([L], ⟨data, p + 1, sz⟩) :=
      read_buffer_chunk data p sz 1 [L]
        (fun i hi => by
          have hi0 : i = 0 := by simpa using hi
          subst hi0
          simpa using hx)
        rfl (by simp at hM ⊢; omega)
    have hL1 : leVal [L] = L := by simp [leVal]
    simp only [read_uvarint, hr1, hL1]
    rw [if_neg (by omega), if_neg (by omega), if_neg (by omega)]
    simp
  · by_cases h2 : L < 65536
    · have he : encodeUvarint L = 253 :: leBytes 2 L := by
        simp [encodeUvarint, h1, h2]
      rw [he] at h hM ⊢
      obtain ⟨hx, hrest⟩ := hasChunk_cons data p 253 (leBytes 2 L) h
      have hM3 : p + 3 < M32 := by simpa [leBytes_length] using hM
      have hr1 : read_buffer_n ⟨data, p, sz⟩ 1 = ([253], ⟨data, p + 1, sz⟩) :=
        read_buffer_chunk data p sz 1 [253]
          (fun i hi => by
            have hi0 : i = 0 := by simpa using hi
            subst hi0
            simpa using hx)
          rfl (by omega)
      have hr2 : read_buffer_n ⟨data, p + 1, sz⟩ 2 = (leBytes 2 L, ⟨data, p + 3, sz⟩) :=
        read_buffer_chunk data (p + 1) sz 2 (leBytes 2 L) hrest (leBytes_length 2 L)
          (by omega)
      simp only [read_uvarint, hr1, hr2]
      rw [leVal_leBytes 2 L (by norm_num; omega)]
      simp [leVal, leBytes_length]
    · by_cases h3 : L < 4294967296
      · have he : encodeUvarint L = 254 :: leBytes 4 L := by
          simp [encodeUvarint, h1, h2, h3]
        rw [he] at h hM ⊢
        obtain ⟨hx, hrest⟩ := hasChunk_cons data p 254 (leBytes 4 L) h
        have hM5 : p + 5 < M32 := by simpa [leBytes_length] using hM
        have hr1 : read_buffer_n ⟨data, p, sz⟩ 1 = ([254], ⟨data, p + 1, sz⟩) :=
          read_buffer_chunk data p sz 1 [254]
            (fun i hi => by
              have hi0 : i = 0 := by simpa using hi
              subst hi0
              simpa using hx)
            rfl (by omega)
        have hr2 : read_buffer_n ⟨data, p + 1, sz⟩ 4 = (leBytes 4 L, ⟨data, p + 5, sz⟩) :=
          read_buffer_chunk data (p + 1) sz 4 (leBytes 4 L) hrest (leBytes_length 4 L)
            (by omega)
        simp only [read_uvarint, hr1, hr2]
        rw [leVal_leBytes 4 L (by norm_num; omega)]
        simp [leVal, leBytes_length]
      · have he : encodeUvarint L = 255 :: leBytes 8 L := by
          simp [encodeUvarint, h1, h2, h3]
        rw [he] at h hM ⊢
        obtain ⟨hx, hrest⟩ := hasChunk_cons data p 255 (leBytes 8 L) h
        have hM9 : p + 9 < M32 := by simpa [leBytes_length] using hM
        have hr1 : read_buffer_n ⟨data, p, sz⟩ 1 = ([255], ⟨data, p + 1, sz⟩) :=
          read_buffer_chunk data p sz 1 [255]
            (fun i hi => by
              have hi0 : i = 0 := by simpa using hi
              subst hi0
              simpa using hx)
            rfl (by omega)
        have hr2 : read_buffer_n ⟨data, p + 1, sz⟩ 8 = (leBytes 8 L, ⟨data, p + 9, sz⟩) :=
          read_buffer_chunk data (p + 1) sz 8 (leBytes 8 L) hrest (leBytes_length 8 L)
            (by omega)
        simp only [read_uvarint, hr1, hr2]
        rw [leVal_leBytes 8 L (by norm_num; omega)]
        simp [leVal, leBytes_length]

theorem validate_uvarint_chunk (data : List Nat) (p sz L : Nat)
    (h : hasChunk data p (encodeUvarint L)) (hL : L < 18446744073709551616)
    (hsz : p + (encodeUvarint L).length ≤ sz) (hM : sz < M32) :
    validate_uvarint ⟨data, p, sz⟩
      = some (L, ⟨data, p + (encodeUvarint L).length, sz⟩) := by
  by_cases h1 : L ≤ 252
  · have he : encodeUvarint L = [L] := by simp [encodeUvarint, h1]
    rw [he] at h hsz ⊢
    obtain ⟨hx, -⟩ := hasChunk_cons data p L [] h
    have hsz1 : p + 1 ≤ sz := by simpa using hsz
    have ro1 : validate_read_only ⟨data, p, sz⟩ 1 = true :=
      validate_read_only_true data p sz 1 hsz1 (by omega)
    have hr1 : read_buffer_n ⟨data, p, sz⟩ 1 = ([L], ⟨data, p + 1, sz⟩) :=
      read_buffer_chunk data p sz 1 [L]
        (fun i hi => by
          have hi0 : i = 0 := by simpa using hi
          subst hi0
          simpa using hx) rfl (by omega)
    have hL1 : leVal [L] = L := by simp [leVal]
    unfold validate_uvarint
    rw [if_pos ro1]
    simp only [hr1, hL1]
    rw [if_neg (by omega), if_neg (by omega), if_neg (by omega)]
    simp
  · by_cases h2 : L < 65536
    · have he : encodeUvarint L = 253 :: leBytes 2 L := by
        simp [encodeUvarint, h1, h2]
      rw [he] at h hsz ⊢
      obtain ⟨hx, hrest⟩ := hasChunk_cons data p 253 (leBytes 2 L) h
      have hsz3 : p + 3 ≤ sz := by simpa [leBytes_length] using hsz
      have ro1 : validate_read_only ⟨data, p, sz⟩ 1 = true :=
        validate_read_only_true data p sz 1 (by omega) (by omega)
      have hr1 : read_buffer_n ⟨data, p, sz⟩ 1 = ([253], ⟨data, p + 1, sz⟩) :=
        read_buffer_chunk data p sz 1 [253]
          (fun i hi => by
            have hi0 : i = 0 := by simpa using hi
            subst hi0
            simpa using hx) rfl (by omega)
      have ro2 : validate_read_only ⟨data, p + 1, sz⟩ 2 = true :=
        validate_read_only_true data (p + 1) sz 2 (by omega) (by omega)
      have hr2 : read_buffer_n ⟨data, p + 1, sz⟩ 2 = (leBytes 2 L, ⟨data, p + 3, sz⟩) :=
        read_buffer_chunk data (p + 1) sz 2 (leBytes 2 L) hrest (leBytes_length 2 L)
          (by omega)
      unfold validate_uvarint
      rw [if_pos ro1]
      simp only [hr1, hr2, ro2]
      rw [leVal_leBytes 2 L (by norm_num; omega)]
      simp [leVal, leBytes_length]
    · by_cases h3 : L < 4294967296
      · have he : encodeUvarint L = 254 :: leBytes 4 L := by
          simp [encodeUvarint, h1, h2, h3]
        rw [he] at h hsz ⊢
        obtain ⟨hx, hrest⟩ := hasChunk_cons data p 254 (leBytes 4 L) h
        have hsz5 : p + 5 ≤ sz := by simpa [leBytes_length] using hsz
        have ro1 : validate_read_only ⟨data, p, sz⟩ 1 = true :=
          validate_read_only_true data p sz 1 (by omega) (by omega)
        have hr1 : read_buffer_n ⟨data, p, sz⟩ 1 = ([254], ⟨data, p + 1, sz⟩) :=
          read_buffer_chunk data p sz 1 [254]
            (fun i hi => by
              have hi0 : i = 0 := by simpa using hi
              subst hi0
              simpa using hx) rfl (by omega)
        have ro2 : validate_read_only ⟨data, p + 1, sz⟩ 4 = true :=
          validate_read_only_true data (p + 1) sz 4 (by omega) (by omega)
        have hr2 : read_buffer_n ⟨data, p + 1, sz⟩ 4 = (leBytes 4 L, ⟨data, p + 5, sz⟩) :=
          read_buffer_chunk data (p + 1) sz 4 (leBytes 4 L) hrest (leBytes_length 4 L)
            (by omega)
        unfold validate_uvarint
        rw [if_pos ro1]
        simp only [hr1, hr2, ro2]
        rw [leVal_leBytes 4 L (by norm_num; omega)]
        simp [leVal, leBytes_length]
      · have he : encodeUvarint L = 255 :: leBytes 8 L := by
          simp [encodeUvarint, h1, h2, h3]
        rw [he] at h hsz ⊢
        obtain ⟨hx, hrest⟩ := hasChunk_cons data p 255 (leBytes 8 L) h
        have hsz9 : p + 9 ≤ sz := by simpa [leBytes_length] using hsz
        have ro1 : validate_read_only ⟨data, p, sz⟩ 1 = true :=
          validate_read_only_true data p sz 1 (by omega) (by omega)
        have hr1 : read_buffer_n ⟨data, p, sz⟩ 1 = ([255], ⟨data, p + 1, sz⟩) :=
          read_buffer_chunk data p sz 1 [255]
            (fun i hi => by
              have hi0 : i = 0 := by simpa using hi
              subst hi0
              simpa using hx) rfl (by omega)
        have ro2 : validate_read_only ⟨data, p + 1, sz⟩ 8 = true :=
          validate_read_only_true data (p + 1) sz 8 (by omega) (by omega)
        have hr2 : read_buffer_n ⟨data, p + 1, sz⟩ 8 = (leBytes 8 L, ⟨data, p + 9, sz⟩) :=
          read_buffer_chunk data (p + 1) sz 8 (leBytes 8 L) hrest (leBytes_length 8 L)
            (by omega)
        unfold validate_uvarint
        rw [if_pos ro1]
        simp only [hr1, hr2, ro2]
        rw [leVal_leBytes 8 L (by norm_num; omega)]
        simp [leVal, leBytes_length]

/-- A wire string (varint length then payload) passes `validate_string`
and advances exactly past it. -/
theorem validate_string_chunk (data : List Nat) (p sz : Nat) (s : List Nat)
    (h : hasChunk data p (encodeUvarint s.length ++ s))
    (hsz : p + (encodeUvarint s.length ++ s).length ≤ sz) (hM : sz < M32) :
    validate_string ⟨data, p, sz⟩
      = some ⟨data, p + (encodeUvarint s.length ++ s).length, sz⟩ := by
  obtain ⟨huv, hs⟩ := hasChunk_append data p (encodeUvarint s.length) s h
  have hL : s.length < 18446744073709551616 := by
    have h1 := encodeUvarint_length_pos s.length
    simp only [List.length_append] at hsz
    simp only [M32] at hM
    omega
  have huvl : validate_uvarint ⟨data, p, sz⟩
      = some (s.length, ⟨data, p + (encodeUvarint s.length).length, sz⟩) :=
    validate_uvarint_chunk data p sz s.length huv hL
      (by simp only [List.length_append] at hsz; omega) hM
  simp only [validate_string, huvl]
  rcases Nat.eq_zero_or_pos s.length with hz | hpos
  · rw [if_neg (by omega)]
    have : s = [] := List.eq_nil_of_length_eq_zero hz
    subst this
    simp
  · rw [if_pos hpos]
    have := validate_read_exact data (p + (encodeUvarint s.length).length) sz s.length
      (by simp only [List.length_append] at hsz; omega)
      (by simp only [List.length_append] at hsz; simp only [M32] at hM ⊢; omega)
    rw [this]
    simp only [List.length_append, Option.some.injEq, Buffer.mk.injEq]
    exact ⟨trivial, by omega, trivial⟩

/-- Same for `validate_bytes`. -/
theorem validate_bytes_chunk (data : List Nat) (p sz : Nat) (s : List Nat)
    (h : hasChunk data p (encodeUvarint s.length ++ s))
    (hsz : p + (encodeUvarint s.length ++ s).length ≤ sz) (hM : sz < M32) :
    validate_bytes ⟨data, p, sz⟩
      = some ⟨data, p + (encodeUvarint s.length ++ s).length, sz⟩ := by
  obtain ⟨huv, hs⟩ := hasChunk_append data p (encodeUvarint s.length) s h
  have hL : s.length < 18446744073709551616 := by
    have h1 := encodeUvarint_length_pos s.length
    simp only [List.length_append] at hsz
    simp only [M32] at hM
    omega
  have huvl : validate_uvarint ⟨data, p, sz⟩
      = some (s.length, ⟨data, p + (encodeUvarint s.length).length, sz⟩) :=
    validate_uvarint_chunk data p sz s.length huv hL
      (by simp only [List.length_append] at hsz; omega) hM
  simp only [validate_bytes, huvl]
  rcases Nat.eq_zero_or_pos s.length with hz | hpos
  · rw [if_neg (by omega)]
    have : s = [] := List.eq_nil_of_length_eq_zero hz
    subst this
    simp
  · rw [if_pos hpos]
    have := validate_read_exact data (p + (encodeUvarint s.length).length) sz s.length
      (by simp only [List.length_append] at hsz; omega)
      (by simp only [List.length_append] at hsz; simp only [M32] at hM ⊢; omega)
    rw [this]
    simp only [List.length_append, Option.some.injEq, Buffer.mk.injEq]
    exact ⟨trivial, by omega, trivial⟩

/-- `validate_value` at a tag byte 0. -/
theorem validate_value_tag0 (f : Nat) (data : List Nat) (p sz : Nat)
    (ht : data.getD p 0 = 0) (hsz : p + 1 ≤ sz) (hM : sz < M32) :
    validate_value (f + 1) ⟨data, p, sz⟩ = VRes.ok (⟨data, p + 1, sz⟩ : Buffer) := by
  rw [validate_value_succ]
  rw [if_pos (validate_read_only_true data p sz 1 hsz (by omega))]
  have hr1 : read_buffer_n ⟨data, p, sz⟩ 1 = ([0], ⟨data, p + 1, sz⟩) :=
    read_buffer_chunk data p sz 1 [0]
      (fun i hi => by
        have hi0 : i = 0 := by simpa using hi
        subst hi0
        simpa using ht) rfl (by omega)
  simp only [hr1, leVal, Nat.mul_zero, Nat.add_zero]
  rw [ht]

/-- `validate_value` at a tag byte 1. -/
theorem validate_value_tag1 (f : Nat) (data : List Nat) (p sz : Nat)
    (ht : data.getD p 0 = 1) (hsz : p + 1 ≤ sz) (hM : sz < M32) :
    validate_value (f + 1) ⟨data, p, sz⟩ = vres (validate_read ⟨data, p + 1, sz⟩ 1) := by
  rw [validate_value_succ]
  rw [if_pos (validate_read_only_true data p sz 1 hsz (by omega))]
  have hr1 : read_buffer_n ⟨data, p, sz⟩ 1 = ([1], ⟨data, p + 1, sz⟩) :=
    read_buffer_chunk data p sz 1 [1]
      (fun i hi => by
        have hi0 : i = 0 := by simpa using hi
        subst hi0
        simpa using ht) rfl (by omega)
  simp only [hr1, leVal, Nat.mul_zero, Nat.add_zero]
  rw [ht]

/-- `validate_value` at a tag byte 2. -/
theorem validate_value_tag2 (f : Nat) (data : List Nat) (p sz : Nat)
    (ht : data.getD p 0 = 2) (hsz : p + 1 ≤ sz) (hM : sz < M32) :
    validate_value (f + 1) ⟨data, p, sz⟩ = vres (validate_read ⟨data, p + 1, sz⟩ 1) := by
  rw [validate_value_succ]
  rw [if_pos (validate_read_only_true data p sz 1 hsz (by omega))]
  have hr1 : read_buffer_n ⟨data, p, sz⟩ 1 = ([2], ⟨data, p + 1, sz⟩) :=
    read_buffer_chunk data p sz 1 [2]
      (fun i hi => by
        have hi0 : i = 0 := by simpa using hi
        subst hi0
        simpa using ht) rfl (by omega)
  simp only [hr1, leVal, Nat.mul_zero, Nat.add_zero]
  rw [ht]

/-- `validate_value` at a tag byte 3. -/
theorem validate_value_tag3 (f : Nat) (data : List Nat) (p sz : Nat)
    (ht : data.getD p 0 = 3) (hsz : p + 1 ≤ sz) (hM : sz < M32) :
    validate_value (f + 1) ⟨data, p, sz⟩ = vres (validate_read ⟨data, p + 1, sz⟩ 2) := by
  rw [validate_value_succ]
  rw [if_pos (validate_read_only_true data p sz 1 hsz (by omega))]
  have hr1 : read_buffer_n ⟨data, p, sz⟩ 1 = ([3], ⟨data, p + 1, sz⟩) :=
    read_buffer_chunk data p sz 1 [3]
      (fun i hi => by
        have hi0 : i = 0 := by simpa using hi
        subst hi0
        simpa using ht) rfl (by omega)
  simp only [hr1, leVal, Nat.mul_zero, Nat.add_zero]
  rw [ht]

/-- `validate_value` at a tag byte 4. -/
theorem validate_value_tag4 (f : Nat) (data : List Nat) (p sz : Nat)
    (ht : data.getD p 0 = 4) (hsz : p + 1 ≤ sz) (hM : sz < M32) :
    validate_value (f + 1) ⟨data, p, sz⟩ = vres (validate_read ⟨data, p + 1, sz⟩ 4) := by
  rw [validate_value_succ]
  rw [if_pos (validate_read_only_true data p sz 1 hsz (by omega))]
  have hr1 : read_buffer_n ⟨data, p, sz⟩ 1 = ([4], ⟨data, p + 1, sz⟩) :=
    read_buffer_chunk data p sz 1 [4]
      (fun i hi => by
        have hi0 : i = 0 := by simpa using hi
        subst hi0
        simpa using ht) rfl (by omega)
  simp only [hr1, leVal, Nat.mul_zero, Nat.add_zero]
  rw [ht]

/-- `validate_value` at a tag byte 5. -/
theorem validate_value_tag5 (f : Nat) (data : List Nat) (p sz : Nat)
    (ht : data.getD p 0 = 5) (hsz : p + 1 ≤ sz) (hM : sz < M32) :
    validate_value (f + 1) ⟨data, p, sz⟩ = vres (validate_read ⟨data, p + 1, sz⟩ 8) := by
  rw [validate_value_succ]
  rw [if_pos (validate_read_only_true data p sz 1 hsz (by omega))]
  have hr1 : read_buffer_n ⟨data, p, sz⟩ 1 = ([5], ⟨data, p + 1, sz⟩) :=
    read_buffer_chunk data p sz 1 [5]
      (fun i hi => by
        have hi0 : i = 0 := by simpa using hi
        subst hi0
        simpa using ht) rfl (by omega)
  simp only [hr1, leVal, Nat.mul_zero, Nat.add_zero]
  rw [ht]

/-- `validate_value` at a tag byte 6. -/
theorem validate_value_tag6 (f : Nat) (data : List Nat) (p sz : Nat)
    (ht : data.getD p 0 = 6) (hsz : p + 1 ≤ sz) (hM : sz < M32) :
    validate_value (f + 1) ⟨data, p, sz⟩ = vres (validate_read ⟨data, p + 1, sz⟩ 1) := by
  rw [validate_value_succ]
  rw [if_pos (validate_read_only_true data p sz 1 hsz (by omega))]
  have hr1 : read_buffer_n ⟨data, p, sz⟩ 1 = ([6], ⟨data, p + 1, sz⟩) :=
    read_buffer_chunk data p sz 1 [6]
      (fun i hi => by
        have hi0 : i = 0 := by simpa using hi
        subst hi0
        simpa using ht) rfl (by omega)
  simp only [hr1, leVal, Nat.mul_zero, Nat.add_zero]
  rw [ht]

/-- `validate_value` at a tag byte 7. -/
theorem validate_value_tag7 (f : Nat) (data : List Nat) (p sz : Nat)
    (ht : data.getD p 0 = 7) (hsz : p + 1 ≤ sz) (hM : sz < M32) :
    validate_value (f + 1) ⟨data, p, sz⟩ = vres (validate_read ⟨data, p + 1, sz⟩ 2) := by
  rw [validate_value_succ]
  rw [if_pos (validate_read_only_true data p sz 1 hsz (by omega))]
  have hr1 : read_buffer_n ⟨data, p, sz⟩ 1 = ([7], ⟨data, p + 1, sz⟩) :=
    read_buffer_chunk data p sz 1 [7]
      (fun i hi => by
        have hi0 : i = 0 := by simpa using hi
        subst hi0
        simpa using ht) rfl (by omega)
  simp only [hr1, leVal, Nat.mul_zero, Nat.add_zero]
  rw [ht]

/-- `validate_value` at a tag byte 8. -/
theorem validate_value_tag8 (f : Nat) (data : List Nat) (p sz : Nat)
    (ht : data.getD p 0 = 8) (hsz : p + 1 ≤ sz) (hM : sz < M32) :
    validate_value (f + 1) ⟨data, p, sz⟩ = vres (validate_read ⟨data, p + 1, sz⟩ 4) := by
  rw [validate_value_succ]
  rw [if_pos (validate_read_only_true data p sz 1 hsz (by omega))]
  have hr1 : read_buffer_n ⟨data, p, sz⟩ 1 = ([8], ⟨data, p + 1, sz⟩) :=
    read_buffer_chunk data p sz 1 [8]
      (fun i hi => by
        have hi0 : i = 0 := by simpa using hi
        subst hi0
        simpa using ht) rfl (by omega)
  simp only [hr1, leVal, Nat.mul_zero, Nat.add_zero]
  rw [ht]

/-- `validate_value` at a tag byte 9. -/
theorem validate_value_tag9 (f : Nat) (data : List Nat) (p sz : Nat)
    (ht : data.getD p 0 = 9) (hsz : p + 1 ≤ sz) (hM : sz < M32) :
    validate_value (f + 1) ⟨data, p, sz⟩ = vres (validate_read ⟨data, p + 1, sz⟩ 8) := by
  rw [validate_value_succ]
  rw [if_pos (validate_read_only_true data p sz 1 hsz (by omega))]
  have hr1 : read_buffer_n ⟨data, p, sz⟩ 1 = ([9], ⟨data, p + 1, sz⟩) :=
    read_buffer_chunk data p sz 1 [9]
      (fun i hi => by
        have hi0 : i = 0 := by simpa using hi
        subst hi0
        simpa using ht) rfl (by omega)
  simp only [hr1, leVal, Nat.mul_zero, Nat.add_zero]
  rw [ht]

/-- `validate_value` at a tag byte 10. -/
theorem validate_value_tag10 (f : Nat) (data : List Nat) (p sz : Nat)
    (ht : data.getD p 0 = 10) (hsz : p + 1 ≤ sz) (hM : sz < M32) :
    validate_value (f + 1) ⟨data, p, sz⟩ = vres (validate_read ⟨data, p + 1, sz⟩ 4) := by
  rw [validate_value_succ]
  rw [if_pos (validate_read_only_true data p sz 1 hsz (by omega))]
  have hr1 : read_buffer_n ⟨data, p, sz⟩ 1 = ([10], ⟨data, p + 1, sz⟩) :=
    read_buffer_chunk data p sz 1 [10]
      (fun i hi => by
        have hi0 : i = 0 := by simpa using hi
        subst hi0
        simpa using ht) rfl (by omega)
  simp only [hr1, leVal, Nat.mul_zero, Nat.add_zero]
  rw [ht]

/-- `validate_value` at a tag byte 11. -/
theorem validate_value_tag11 (f : Nat) (data : List Nat) (p sz : Nat)
    (ht : data.getD p 0 = 11) (hsz : p + 1 ≤ sz) (hM : sz < M32) :
    validate_value (f + 1) ⟨data, p, sz⟩ = vres (validate_read ⟨data, p + 1, sz⟩ 8) := by
  rw [validate_value_succ]
  rw [if_pos (validate_read_only_true data p sz 1 hsz (by omega))]
  have hr1 : read_buffer_n ⟨data, p, sz⟩ 1 = ([11], ⟨data, p + 1, sz⟩) :=
    read_buffer_chunk data p sz 1 [11]
      (fun i hi => by
        have hi0 : i = 0 := by simpa using hi
        subst hi0
        simpa using ht) rfl (by omega)
  simp only [hr1, leVal, Nat.mul_zero, Nat.add_zero]
  rw [ht]

/-- `validate_value` at a tag byte 12. -/
theorem validate_value_tag12 (f : Nat) (data : List Nat) (p sz : Nat)
    (ht : data.getD p 0 = 12) (hsz : p + 1 ≤ sz) (hM : sz < M32) :
    validate_value (f + 1) ⟨data, p, sz⟩ = vres (validate_string ⟨data, p + 1, sz⟩) := by
  rw [validate_value_succ]
  rw [if_pos (validate_read_only_true data p sz 1 hsz (by omega))]
  have hr1 : read_buffer_n ⟨data, p, sz⟩ 1 = ([12], ⟨data, p + 1, sz⟩) :=
    read_buffer_chunk data p sz 1 [12]
      (fun i hi => by
        have hi0 : i = 0 := by simpa using hi
        subst hi0
        simpa using ht) rfl (by omega)
  simp only [hr1, leVal, Nat.mul_zero, Nat.add_zero]
  rw [ht]

/-- `validate_value` at a tag byte 13. -/
theorem validate_value_tag13 (f : Nat) (data : List Nat) (p sz : Nat)
    (ht : data.getD p 0 = 13) (hsz : p + 1 ≤ sz) (hM : sz < M32) :
    validate_value (f + 1) ⟨data, p, sz⟩ = vres (validate_bytes ⟨data, p + 1, sz⟩) := by
  rw [validate_value_succ]
  rw [if_pos (validate_read_only_true data p sz 1 hsz (by omega))]
  have hr1 : read_buffer_n ⟨data, p, sz⟩ 1 = ([13], ⟨data, p + 1, sz⟩) :=
    read_buffer_chunk data p sz 1 [13]
      (fun i hi => by
        have hi0 : i = 0 := by simpa using hi
        subst hi0
        simpa using ht) rfl (by omega)
  simp only [hr1, leVal, Nat.mul_zero, Nat.add_zero]
  rw [ht]

/-- `validate_value` at a tag byte 14. -/
theorem validate_value_tag14 (f : Nat) (data : List Nat) (p sz : Nat)
    (ht : data.getD p 0 = 14) (hsz : p + 1 ≤ sz) (hM : sz < M32) :
    validate_value (f + 1) ⟨data, p, sz⟩ = validate_array f ⟨data, p + 1, sz⟩ := by
  rw [validate_value_succ]
  rw [if_pos (validate_read_only_true data p sz 1 hsz (by omega))]
  have hr1 : read_buffer_n ⟨data, p, sz⟩ 1 = ([14], ⟨data, p + 1, sz⟩) :=
    read_buffer_chunk data p sz 1 [14]
      (fun i hi => by
        have hi0 : i = 0 := by simpa using hi
        subst hi0
        simpa using ht) rfl (by omega)
  simp only [hr1, leVal, Nat.mul_zero, Nat.add_zero]
  rw [ht]

/-- `validate_value` at a tag byte 15. -/
theorem validate_value_tag15 (f : Nat) (data : List Nat) (p sz : Nat)
    (ht : data.getD p 0 = 15) (hsz : p + 1 ≤ sz) (hM : sz < M32) :
    validate_value (f + 1) ⟨data, p, sz⟩ = validate_obj f ⟨data, p + 1, sz⟩ := by
  rw [validate_value_succ]
  rw [if_pos (validate_read_only_true data p sz 1 hsz (by omega))]
  have hr1 : read_buffer_n ⟨data, p, sz⟩ 1 = ([15], ⟨data, p + 1, sz⟩) :=
    read_buffer_chunk data p sz 1 [15]
      (fun i hi => by
        have hi0 : i = 0 := by simpa using hi
        subst hi0
        simpa using ht) rfl (by omega)
  simp only [hr1, leVal, Nat.mul_zero, Nat.add_zero]
  rw [ht]

theorem hasChunk_congr (data : List Nat) (p q : Nat) (l : List Nat)
    (h : hasChunk data p l) (hpq : q = p) : hasChunk data q l := hpq ▸ h

/-- Payload skip of a fixed-width scalar after the tag. -/
theorem scalar_case (data : List Nat) (p sz n m : Nat) (hm : m = n + 1)
    (hle : p + m ≤ sz) (hM : sz < M32) :
    vres (validate_read ⟨data, p + 1, sz⟩ n) = .ok ⟨data, p + m, sz⟩ := by
  subst hm
  rw [validate_read_exact data (p + 1) sz n (by omega) (by omega)]
  simp only [vres, VRes.ok.injEq, Buffer.mk.injEq]
  exact ⟨trivial, by omega, trivial⟩

theorem fuelNeed_pos (v : BValue) : 1 ≤ fuelNeed v := by
  cases v <;> simp [fuelNeed] <;> omega

/-- The validator accepts every well-formed encoded value (joint statement
for the value walk and the two container loops), advancing the cursor
exactly past the encoding. -/
theorem validator_complete : ∀ fuel : Nat,
    (∀ v data p sz, wfb v = true → hasChunk data p (encodeValue v) →
      fuelNeed v ≤ fuel → p + (encodeValue v).length ≤ sz → sz < M32 →
      validate_value fuel ⟨data, p, sz⟩
        = .ok ⟨data, p + (encodeValue v).length, sz⟩) ∧
    (∀ xs i n data p sz, wfbL xs = true → hasChunk data p (encodeL xs) →
      fuelNeedL xs ≤ fuel → i + xs.length = n →
      p + (encodeL xs).length ≤ sz → sz < M32 →
      validate_arr_loop fuel i n ⟨data, p, sz⟩
        = .ok ⟨data, p + (encodeL xs).length, sz⟩) ∧
    (∀ es i n data p sz, wfbE es = true → hasChunk data p (encodeE es) →
      fuelNeedE es ≤ fuel → i + es.length = n →
      p + (encodeE es).length ≤ sz → sz < M32 →
      validate_obj_loop fuel i n ⟨data, p, sz⟩
        = .ok ⟨data, p + (encodeE es).length, sz⟩) := by
  intro fuel
  induction fuel using Nat.strong_induction_on with
  | _ fuel ih =>
  refine ⟨?_, ?_, ?_⟩
  · intro v data p sz hw h hf hsz hM
    obtain ⟨f, rfl⟩ : ∃ f, fuel = f + 1 :=
      ⟨fuel - 1, by have := fuelNeed_pos v; omega⟩
    cases v with
    | null =>
      simp only [encodeValue] at h hsz ⊢
      obtain ⟨hx, -⟩ := hasChunk_cons data p 0 [] h
      simp only [List.length_cons, List.length_nil] at hsz ⊢
      rw [validate_value_tag0 f data p sz hx (by omega) hM]
    | boolean b =>
      simp only [encodeValue] at h hsz ⊢
      obtain ⟨hx, -⟩ := hasChunk_cons data p 1 [if b then 1 else 0] h
      simp only [List.length_cons, List.length_singleton] at hsz ⊢
      rw [validate_value_tag1 f data p sz hx (by omega) hM]
      exact scalar_case data p sz 1 2 (by omega) (by omega) hM
      | int8 v =>
        simp only [encodeValue] at h hsz ⊢
        obtain ⟨hx, -⟩ := hasChunk_cons data p 2 (intLE 1 v) h
        have hlen : (intLE 1 v).length = 1 := by simp [intLE, leBytes_length]
        simp only [List.length_cons, hlen] at hsz ⊢
        rw [validate_value_tag2 f data p sz hx (by omega) hM]
        exact scalar_case data p sz 1 2 (by omega) (by omega) hM
      | int16 v =>
        simp only [encodeValue] at h hsz ⊢
        obtain ⟨hx, -⟩ := hasChunk_cons data p 3 (intLE 2 v) h
        have hlen : (intLE 2 v).length = 2 := by simp [intLE, leBytes_length]
        simp only [List.length_cons, hlen] at hsz ⊢
        rw [validate_value_tag3 f data p sz hx (by omega) hM]
        exact scalar_case data p sz 2 3 (by omega) (by omega) hM
      | int32 v =>
        simp only [encodeValue] at h hsz ⊢
        obtain ⟨hx, -⟩ := hasChunk_cons data p 4 (intLE 4 v) h
        have hlen : (intLE 4 v).length = 4 := by simp [intLE, leBytes_length]
        simp only [List.length_cons, hlen] at hsz ⊢
        rw [validate_value_tag4 f data p sz hx (by omega) hM]
        exact scalar_case data p sz 4 5 (by omega) (by omega) hM
      | int64 v =>
        simp only [encodeValue] at h hsz ⊢
        obtain ⟨hx, -⟩ := hasChunk_cons data p 5 (intLE 8 v) h
        have hlen : (intLE 8 v).length = 8 := by simp [intLE, leBytes_length]
        simp only [List.length_cons, hlen] at hsz ⊢
        rw [validate_value_tag5 f data p sz hx (by omega) hM]
        exact scalar_case data p sz 8 9 (by omega) (by omega) hM
      | uint8 v =>
        simp only [encodeValue] at h hsz ⊢
        obtain ⟨hx, -⟩ := hasChunk_cons data p 6 (leBytes 1 v) h
        have hlen : (leBytes 1 v).length = 1 := by simp [intLE, leBytes_length]
        simp only [List.length_cons, hlen] at hsz ⊢
        rw [validate_value_tag6 f data p sz hx (by omega) hM]
        exact scalar_case data p sz 1 2 (by omega) (by omega) hM
      | uint16 v =>
        simp only [encodeValue] at h hsz ⊢
        obtain ⟨hx, -⟩ := hasChunk_cons data p 7 (leBytes 2 v) h
        have hlen : (leBytes 2 v).length = 2 := by simp [intLE, leBytes_length]
        simp only [List.length_cons, hlen] at hsz ⊢
        rw [validate_value_tag7 f data p sz hx (by omega) hM]
        exact scalar_case data p sz 2 3 (by omega) (by omega) hM
      | uint32 v =>
        simp only [encodeValue] at h hsz ⊢
        obtain ⟨hx, -⟩ := hasChunk_cons data p 8 (leBytes 4 v) h
        have hlen : (leBytes 4 v).length = 4 := by simp [intLE, leBytes_length]
        simp only [List.length_cons, hlen] at hsz ⊢
        rw [validate_value_tag8 f data p sz hx (by omega) hM]
        exact scalar_case data p sz 4 5 (by omega) (by omega) hM
      | uint64 v =>
        simp only [encodeValue] at h hsz ⊢
        obtain ⟨hx, -⟩ := hasChunk_cons data p 9 (leBytes 8 v) h
        have hlen : (leBytes 8 v).length = 8 := by simp [intLE, leBytes_length]
        simp only [List.length_cons, hlen] at hsz ⊢
        rw [validate_value_tag9 f data p sz hx (by omega) hM]
        exact scalar_case data p sz 8 9 (by omega) (by omega) hM
      | float32 pl =>
        simp only [encodeValue] at h hsz ⊢
        simp only [wfb, Bool.and_eq_true, decide_eq_true_eq] at hw
        obtain ⟨hx, -⟩ := hasChunk_cons data p 10 pl h
        have hlen : pl.length = 4 := by simpa using hw.1
        simp only [List.length_cons, hlen] at hsz ⊢
        rw [validate_value_tag10 f data p sz hx (by omega) hM]
        exact scalar_case data p sz 4 5 (by omega) (by omega) hM
      | float64 pl =>
        simp only [encodeValue] at h hsz ⊢
        simp only [wfb, Bool.and_eq_true, decide_eq_true_eq] at hw
        obtain ⟨hx, -⟩ := hasChunk_cons data p 11 pl h
        have hlen : pl.length = 8 := by simpa using hw.1
        simp only [List.length_cons, hlen] at hsz ⊢
        rw [validate_value_tag11 f data p sz hx (by omega) hM]
        exact scalar_case data p sz 8 9 (by omega) (by omega) hM
      | str s =>
        simp only [encodeValue] at h hsz ⊢
        obtain ⟨hx, hrest⟩ := hasChunk_cons data p 12 (encodeUvarint s.length ++ s) h
        simp only [List.length_cons, List.length_append] at hsz ⊢
        rw [validate_value_tag12 f data p sz hx (by omega) hM]
        rw [validate_string_chunk data (p + 1) sz s hrest (by simp [List.length_append]; omega) hM]
        simp only [vres, VRes.ok.injEq, Buffer.mk.injEq, List.length_append]
        exact ⟨trivial, by omega, trivial⟩
      | bytes s =>
        simp only [encodeValue] at h hsz ⊢
        obtain ⟨hx, hrest⟩ := hasChunk_cons data p 13 (encodeUvarint s.length ++ s) h
        simp only [List.length_cons, List.length_append] at hsz ⊢
        rw [validate_value_tag13 f data p sz hx (by omega) hM]
        rw [validate_bytes_chunk data (p + 1) sz s hrest (by simp [List.length_append]; omega) hM]
        simp only [vres, VRes.ok.injEq, Buffer.mk.injEq, List.length_append]
        exact ⟨trivial, by omega, trivial⟩
    | array xs =>
      simp only [encodeValue] at h hsz ⊢
      simp only [wfb] at hw
      simp only [fuelNeed] at hf
      obtain ⟨hx, hrest⟩ := hasChunk_cons data p 14 (encodeUvarint xs.length ++ encodeL xs) h
      obtain ⟨huv, hl⟩ :=
        hasChunk_append data (p + 1) (encodeUvarint xs.length) (encodeL xs) hrest
      simp only [List.length_cons, List.length_append] at hsz ⊢
      obtain ⟨g, rfl⟩ : ∃ g, f = g + 1 := ⟨f - 1, by omega⟩
      rw [validate_value_tag14 (g + 1) data p sz hx (by omega) hM]
      rw [validate_array_succ]
      have hxl : xs.length < 18446744073709551616 := by
        have h1 := encodeL_length_ge xs
        simp only [M32] at hM
        omega
      rw [validate_uvarint_chunk data (p + 1) sz xs.length huv hxl (by omega) hM]
      show validate_arr_loop g 0 xs.length
          ⟨data, p + 1 + (encodeUvarint xs.length).length, sz⟩ = _
      have hL := (ih g (by omega)).2.1 xs 0 xs.length data
        (p + 1 + (encodeUvarint xs.length).length) sz hw hl (by omega) (by omega)
        (by omega) hM
      rw [hL]
      simp only [VRes.ok.injEq, Buffer.mk.injEq]
      exact ⟨trivial, by omega, trivial⟩
    | obj es =>
      simp only [encodeValue] at h hsz ⊢
      simp only [wfb] at hw
      simp only [fuelNeed] at hf
      obtain ⟨hx, hrest⟩ := hasChunk_cons data p 15 (encodeUvarint es.length ++ encodeE es) h
      obtain ⟨huv, hl⟩ :=
        hasChunk_append data (p + 1) (encodeUvarint es.length) (encodeE es) hrest
      simp only [List.length_cons, List.length_append] at hsz ⊢
      obtain ⟨g, rfl⟩ : ∃ g, f = g + 1 := ⟨f - 1, by omega⟩
      rw [validate_value_tag15 (g + 1) data p sz hx (by omega) hM]
      rw [validate_obj_succ]
      have hxl : es.length < 18446744073709551616 := by
        have h1 := encodeE_length_ge es
        simp only [M32] at hM
        omega
      rw [validate_uvarint_chunk data (p + 1) sz es.length huv hxl (by omega) hM]
      show validate_obj_loop g 0 es.length
          ⟨data, p + 1 + (encodeUvarint es.length).length, sz⟩ = _
      have hL := (ih g (by omega)).2.2 es 0 es.length data
        (p + 1 + (encodeUvarint es.length).length) sz hw hl (by omega) (by omega)
        (by omega) hM
      rw [hL]
      simp only [VRes.ok.injEq, Buffer.mk.injEq]
      exact ⟨trivial, by omega, trivial⟩
  · intro xs i n data p sz hw h hf hi hsz hM
    cases xs with
    | nil =>
      simp only [encodeL, List.length_nil] at hsz ⊢
      rw [validate_arr_loop_exit _ _ _ _ (by simp at hi; omega)]
      simp
    | cons c cs =>
      simp only [encodeL, List.length_append] at h hsz ⊢
      simp only [wfbL, Bool.and_eq_true] at hw
      simp only [fuelNeedL] at hf
      simp only [List.length_cons] at hi
      obtain ⟨hc, hcs⟩ := hasChunk_append data p (encodeValue c) (encodeL cs) h
      obtain ⟨g, rfl⟩ : ∃ g, fuel = g + 1 := ⟨fuel - 1, by omega⟩
      rw [validate_arr_loop_succ g i n ⟨data, p, sz⟩ (by omega)]
      have hv := (ih g (by omega)).1 c data p sz hw.1 hc (by omega) (by omega) hM
      rw [hv]
      show validate_arr_loop g (i + 1) n ⟨data, p + (encodeValue c).length, sz⟩ = _
      have hcs2 := (ih g (by omega)).2.1 cs (i + 1) n data
        (p + (encodeValue c).length) sz hw.2 hcs (by omega) (by omega) (by omega) hM
      rw [hcs2]
      simp only [VRes.ok.injEq, Buffer.mk.injEq]
      exact ⟨trivial, by omega, trivial⟩
  · intro es i n data p sz hw h hf hi hsz hM
    cases es with
    | nil =>
      simp only [encodeE, List.length_nil] at hsz ⊢
      rw [validate_obj_loop_exit _ _ _ _ (by simp at hi; omega)]
      simp
    | cons e es =>
      simp only [encodeE, List.length_append] at h hsz ⊢
      simp only [wfbE, Bool.and_eq_true] at hw
      simp only [fuelNeedE] at hf
      simp only [List.length_cons] at hi
      obtain ⟨hent, hes⟩ := hasChunk_append data p
        (encodeUvarint e.1.length ++ e.1 ++ encodeValue e.2) (encodeE es) h
      obtain ⟨hkey, hval⟩ := hasChunk_append data p
        (encodeUvarint e.1.length ++ e.1) (encodeValue e.2) hent
      obtain ⟨g, rfl⟩ : ∃ g, fuel = g + 1 := ⟨fuel - 1, by omega⟩
      rw [validate_obj_loop_succ g i n ⟨data, p, sz⟩ (by omega)]
      rw [validate_string_chunk data p sz e.1 hkey
        (by simp only [List.length_append] at hsz ⊢; omega) hM]
      show (match validate_value g
              (⟨data, p + (encodeUvarint e.1.length ++ e.1).length, sz⟩ : Buffer) with
            | VRes.ok b' => validate_obj_loop g (i + 1) n b'
            | VRes.bad => VRes.bad
            | VRes.fuel => VRes.fuel) = _
      have hv := (ih g (by omega)).1 e.2 data
        (p + (encodeUvarint e.1.length ++ e.1).length) sz hw.1.2 hval (by omega)
        (by simp only [List.length_append] at hsz ⊢; omega) hM
      rw [hv]
      show validate_obj_loop g (i + 1) n
          ⟨data, p + (encodeUvarint e.1.length ++ e.1).length
            + (encodeValue e.2).length, sz⟩ = _
      have hes2 := (ih g (by omega)).2.2 es (i + 1) n data
        (p + (encodeUvarint e.1.length ++ e.1).length + (encodeValue e.2).length) sz
        hw.2 (hasChunk_congr data _ _ _ hes
          (by simp only [List.length_append]; omega))
        (by omega) (by omega)
        (by simp only [List.length_append] at hsz ⊢; omega) hM
      rw [hes2]
      simp only [VRes.ok.injEq, Buffer.mk.injEq, List.length_append]
      exact ⟨trivial, by omega, trivial⟩

/-! ### Decoder completeness on encoded buffers -/

theorem read_value_succ (alloc : Nat → Bool) (f k : Nat) (b : Buffer) :
    read_value alloc (f + 1) k b
      = read_data alloc f (read_data_type b).1 k (read_data_type b).2 := rfl

theorem read_array_succ (alloc : Nat → Bool) (f k : Nat) (b : Buffer) :
    read_array alloc (f + 1) k b
      = read_array_loop alloc f 0 (read_uvarint b).1 [] k (read_uvarint b).2 := rfl

theorem read_obj_succ (alloc : Nat → Bool) (f k : Nat) (b : Buffer) :
    read_obj alloc (f + 1) k b
      = read_obj_loop alloc f 0 (read_uvarint b).1 [] k (read_uvarint b).2 := rfl

theorem read_array_loop_succ (alloc : Nat → Bool) (f i len : Nat)
    (acc : List JValue) (k : Nat) (b : Buffer) (hi : i < len) :
    read_array_loop alloc (f + 1) i len acc k b
      = (match read_value alloc f k b with
         | .ok v b' k' =>
           read_array_loop alloc f ((i + 1) % M32) len
             (if alloc k' then acc ++ [v] else acc) (k' + 1) b'
         | .null => .null
         | .fuel => .fuel) := by
  rw [read_array_loop.eq_def, if_pos hi]

theorem read_array_loop_exit (alloc : Nat → Bool) (fuel i len : Nat)
    (acc : List JValue) (k : Nat) (b : Buffer) (hi : ¬ i < len) :
    read_array_loop alloc fuel i len acc k b = .ok (.array acc) b k := by
  rw [read_array_loop.eq_def, if_neg hi]

theorem read_obj_loop_succ (alloc : Nat → Bool) (f i len : Nat)
    (entries : List (List Nat × JValue)) (k : Nat) (b : Buffer) (hi : i < len) :
    read_obj_loop alloc (f + 1) i len entries k b
      = (match read_value alloc f k (read_raw_string b).2 with
         | .ok v b' k' =>
           read_obj_loop alloc f ((i + 1) % M32) len
             (if alloc k' then objSet entries (read_raw_string b).1 v else entries)
             (k' + 1) b'
         | .null => .null
         | .fuel => .fuel) := by
  rw [read_obj_loop.eq_def, if_pos hi]

theorem read_obj_loop_exit (alloc : Nat → Bool) (fuel i len : Nat)
    (entries : List (List Nat × JValue)) (k : Nat) (b : Buffer) (hi : ¬ i < len) :
    read_obj_loop alloc fuel i len entries k b = .ok (.object entries) b k := by
  rw [read_obj_loop.eq_def, if_neg hi]

theorem read_data_type_chunk (data : List Nat) (p sz t : Nat)
    (ht : data.getD p 0 = t) (hle : t ≤ 15) (hM : p + 1 < M32) :
    read_data_type ⟨data, p, sz⟩ = (t, ⟨data, p + 1, sz⟩) := by
  have hr1 : read_buffer_n ⟨data, p, sz⟩ 1 = ([t], ⟨data, p + 1, sz⟩) :=
    read_buffer_chunk data p sz 1 [t]
      (fun i hi => by
        have hi0 : i = 0 := by simpa using hi
        subst hi0
        simpa using ht) rfl hM
  simp only [read_data_type, hr1, leVal, Nat.mul_zero, Nat.add_zero]
  rw [if_neg (by omega), ht]

theorem json_integer_ok (k : Nat) (b : Buffer) (n : Int) :
    json_integer allocOk k b n = .ok (.integer n) b (k + 1) := by
  simp [json_integer, allocOk]

theorem json_real32_ok (k : Nat) (b : Buffer) (s : List Nat) :
    json_real32 allocOk k b s = .ok (.real32 s) b (k + 1) := by
  simp [json_real32, allocOk]

theorem json_real64_ok (k : Nat) (b : Buffer) (s : List Nat) :
    json_real64 allocOk k b s = .ok (.real64 s) b (k + 1) := by
  simp [json_real64, allocOk]

theorem json_string_ok (k : Nat) (b : Buffer) (s : List Nat) :
    json_string_f allocOk k b s = .ok (.str s) b (k + 1) := by
  simp [json_string_f, allocOk]

theorem json_bytes_ok (k : Nat) (b : Buffer) (s : List Nat) :
    json_bytes_f allocOk k b s = .ok (.bytes s) b (k + 1) := by
  simp [json_bytes_f, allocOk]

theorem read_raw_string_chunk (data : List Nat) (p sz : Nat) (s : List Nat)
    (h : hasChunk data p (encodeUvarint s.length ++ s))
    (hM : p + (encodeUvarint s.length ++ s).length < M32) :
    read_raw_string ⟨data, p, sz⟩
      = (s, ⟨data, p + (encodeUvarint s.length ++ s).length, sz⟩) := by
  obtain ⟨huv, hs⟩ := hasChunk_append data p (encodeUvarint s.length) s h
  have hL : s.length < 18446744073709551616 := by
    simp only [List.length_append, M32] at hM
    omega
  have huvl := read_uvarint_chunk data p sz s.length huv hL
    (by simp only [List.length_append] at hM ⊢; omega)
  simp only [read_raw_string, huvl]
  rcases Nat.eq_zero_or_pos s.length with hz | hpos
  · rw [if_neg (by omega)]
    have hsnil : s = [] := List.eq_nil_of_length_eq_zero hz
    subst hsnil
    simp
  · rw [if_pos hpos]
    rw [read_buffer_chunk data (p + (encodeUvarint s.length).length) sz s.length s hs rfl
      (by simp only [List.length_append] at hM ⊢; omega)]
    simp only [List.length_append, Prod.mk.injEq, Buffer.mk.injEq]
    exact ⟨trivial, trivial, by omega, trivial⟩

theorem fuelNeed_two (v : BValue) : 2 ≤ fuelNeed v := by
  cases v <;> simp [fuelNeed] <;> omega

/-- The decoder (with all allocations succeeding) reads every well-formed
encoded value, producing some value and advancing the cursor exactly past
the encoding (joint statement with the two container loops). -/
theorem decoder_complete : ∀ fuel : Nat,
    (∀ v data p sz k, wfb v = true → hasChunk data p (encodeValue v) →
      fuelNeed v ≤ fuel → p + (encodeValue v).length < M32 →
      ∃ w k', read_value allocOk fuel k ⟨data, p, sz⟩
        = .ok w ⟨data, p + (encodeValue v).length, sz⟩ k') ∧
    (∀ xs i n data p sz k acc, wfbL xs = true → hasChunk data p (encodeL xs) →
      fuelNeedL xs ≤ fuel → i + xs.length = n → n < M32 →
      p + (encodeL xs).length < M32 →
      ∃ acc2 k', read_array_loop allocOk fuel i n acc k ⟨data, p, sz⟩
        = .ok (.array acc2) ⟨data, p + (encodeL xs).length, sz⟩ k') ∧
    (∀ es i n data p sz k entries, wfbE es = true → hasChunk data p (encodeE es) →
      fuelNeedE es ≤ fuel → i + es.length = n → n < M32 →
      p + (encodeE es).length < M32 →
      ∃ ent2 k', read_obj_loop allocOk fuel i n entries k ⟨data, p, sz⟩
        = .ok (.object ent2) ⟨data, p + (encodeE es).length, sz⟩ k') := by
  intro fuel
  induction fuel using Nat.strong_induction_on with
  | _ fuel ih =>
  refine ⟨?_, ?_, ?_⟩
  · intro v data p sz k hw h hf hM2
    obtain ⟨f, rfl⟩ : ∃ f, fuel = f + 1 :=
      ⟨fuel - 1, by have := fuelNeed_two v; omega⟩
    obtain ⟨f1, rfl⟩ : ∃ f1, f = f1 + 1 :=
      ⟨f - 1, by have := fuelNeed_two v; omega⟩
    cases v with
    | null =>
      simp only [encodeValue] at h hM2 ⊢
      obtain ⟨hx, -⟩ := hasChunk_cons data p 0 [] h
      simp only [List.length_cons, List.length_nil] at hM2 ⊢
      rw [read_value_succ, read_data_type_chunk data p sz 0 hx (by norm_num) (by omega)]
      exact ⟨.null, k, rfl⟩
    | boolean b =>
      simp only [encodeValue] at h hM2 ⊢
      obtain ⟨hx, hrest⟩ := hasChunk_cons data p 1 [if b then 1 else 0] h
      simp only [List.length_cons, List.length_singleton] at hM2 ⊢
      rw [read_value_succ, read_data_type_chunk data p sz 1 hx (by norm_num) (by omega)]
      show ∃ w2 k', DRes.ok (read_bool ⟨data, p + 1, sz⟩).1
          (read_bool ⟨data, p + 1, sz⟩).2 k = .ok w2 ⟨data, p + 2, sz⟩ k'
      have hrd : read_buffer_n ⟨data, p + 1, sz⟩ 1
          = ([if b then 1 else 0], ⟨data, p + 2, sz⟩) :=
        read_buffer_chunk data (p + 1) sz 1 [if b then 1 else 0] hrest rfl (by omega)
      refine ⟨(read_bool ⟨data, p + 1, sz⟩).1, k, ?_⟩
      have hb2 : (read_bool ⟨data, p + 1, sz⟩).2 = ⟨data, p + 2, sz⟩ := by
        simp only [read_bool, hrd]
      rw [hb2]
    | int8 v =>
      simp only [encodeValue] at h hM2 ⊢
      obtain ⟨hx, hrest⟩ := hasChunk_cons data p 2 (intLE 1 v) h
      have hlen : (intLE 1 v).length = 1 := by simp [intLE, leBytes_length]
      simp only [List.length_cons, hlen] at hM2 ⊢
      rw [read_value_succ, read_data_type_chunk data p sz 2 hx (by norm_num) (by omega)]
      show ∃ w2 k', read_int8 allocOk k ⟨data, p + 1, sz⟩
        = .ok w2 ⟨data, p + 2, sz⟩ k'
      have hrd : read_buffer_n ⟨data, p + 1, sz⟩ 1 = (intLE 1 v, ⟨data, p + 2, sz⟩) :=
        read_buffer_chunk data (p + 1) sz 1 (intLE 1 v) hrest hlen (by omega)
      exact ⟨_, k + 1, by simp only [read_int8, hrd]; exact json_integer_ok k _ _⟩
    | int16 v =>
      simp only [encodeValue] at h hM2 ⊢
      obtain ⟨hx, hrest⟩ := hasChunk_cons data p 3 (intLE 2 v) h
      have hlen : (intLE 2 v).length = 2 := by simp [intLE, leBytes_length]
      simp only [List.length_cons, hlen] at hM2 ⊢
      rw [read_value_succ, read_data_type_chunk data p sz 3 hx (by norm_num) (by omega)]
      show ∃ w2 k', read_int16 allocOk k ⟨data, p + 1, sz⟩
        = .ok w2 ⟨data, p + 3, sz⟩ k'
      have hrd : read_buffer_n ⟨data, p + 1, sz⟩ 2 = (intLE 2 v, ⟨data, p + 3, sz⟩) :=
        read_buffer_chunk data (p + 1) sz 2 (intLE 2 v) hrest hlen (by omega)
      exact ⟨_, k + 1, by simp only [read_int16, hrd]; exact json_integer_ok k _ _⟩
    | int32 v =>
      simp only [encodeValue] at h hM2 ⊢
      obtain ⟨hx, hrest⟩ := hasChunk_cons data p 4 (intLE 4 v) h
      have hlen : (intLE 4 v).length = 4 := by simp [intLE, leBytes_length]
      simp only [List.length_cons, hlen] at hM2 ⊢
      rw [read_value_succ, read_data_type_chunk data p sz 4 hx (by norm_num) (by omega)]
      show ∃ w2 k', read_int32 allocOk k ⟨data, p + 1, sz⟩
        = .ok w2 ⟨data, p + 5, sz⟩ k'
      have hrd : read_buffer_n ⟨data, p + 1, sz⟩ 4 = (intLE 4 v, ⟨data, p + 5, sz⟩) :=
        read_buffer_chunk data (p + 1) sz 4 (intLE 4 v) hrest hlen (by omega)
      exact ⟨_, k + 1, by simp only [read_int32, hrd]; exact json_integer_ok k _ _⟩
    | int64 v =>
      simp only [encodeValue] at h hM2 ⊢
      obtain ⟨hx, hrest⟩ := hasChunk_cons data p 5 (intLE 8 v) h
      have hlen : (intLE 8 v).length = 8 := by simp [intLE, leBytes_length]
      simp only [List.length_cons, hlen] at hM2 ⊢
      rw [read_value_succ, read_data_type_chunk data p sz 5 hx (by norm_num) (by omega)]
      show ∃ w2 k', read_int64 allocOk k ⟨data, p + 1, sz⟩
        = .ok w2 ⟨data, p + 9, sz⟩ k'
      have hrd : read_buffer_n ⟨data, p + 1, sz⟩ 8 = (intLE 8 v, ⟨data, p + 9, sz⟩) :=
        read_buffer_chunk data (p + 1) sz 8 (intLE 8 v) hrest hlen (by omega)
      exact ⟨_, k + 1, by simp only [read_int64, hrd]; exact json_integer_ok k _ _⟩
    | uint8 v =>
      simp only [encodeValue] at h hM2 ⊢
      obtain ⟨hx, hrest⟩ := hasChunk_cons data p 6 (leBytes 1 v) h
      have hlen : (leBytes 1 v).length = 1 := by simp [intLE, leBytes_length]
      simp only [List.length_cons, hlen] at hM2 ⊢
      rw [read_value_succ, read_data_type_chunk data p sz 6 hx (by norm_num) (by omega)]
      show ∃ w2 k', read_uint8 allocOk k ⟨data, p + 1, sz⟩
        = .ok w2 ⟨data, p + 2, sz⟩ k'
      have hrd : read_buffer_n ⟨data, p + 1, sz⟩ 1 = (leBytes 1 v, ⟨data, p + 2, sz⟩) :=
        read_buffer_chunk data (p + 1) sz 1 (leBytes 1 v) hrest hlen (by omega)
      exact ⟨_, k + 1, by simp only [read_uint8, hrd]; exact json_integer_ok k _ _⟩
    | uint16 v =>
      simp only [encodeValue] at h hM2 ⊢
      obtain ⟨hx, hrest⟩ := hasChunk_cons data p 7 (leBytes 2 v) h
      have hlen : (leBytes 2 v).length = 2 := by simp [intLE, leBytes_length]
      simp only [List.length_cons, hlen] at hM2 ⊢
      rw [read_value_succ, read_data_type_chunk data p sz 7 hx (by norm_num) (by omega)]
      show ∃ w2 k', read_uint16 allocOk k ⟨data, p + 1, sz⟩
        = .ok w2 ⟨data, p + 3, sz⟩ k'
      have hrd : read_buffer_n ⟨data, p + 1, sz⟩ 2 = (leBytes 2 v, ⟨data, p + 3, sz⟩) :=
        read_buffer_chunk data (p + 1) sz 2 (leBytes 2 v) hrest hlen (by omega)
      exact ⟨_, k + 1, by simp only [read_uint16, hrd]; exact json_integer_ok k _ _⟩
    | uint32 v =>
      simp only [encodeValue] at h hM2 ⊢
      obtain ⟨hx, hrest⟩ := hasChunk_cons data p 8 (leBytes 4 v) h
      have hlen : (leBytes 4 v).length = 4 := by simp [intLE, leBytes_length]
      simp only [List.length_cons, hlen] at hM2 ⊢
      rw [read_value_succ, read_data_type_chunk data p sz 8 hx (by norm_num) (by omega)]
      show ∃ w2 k', read_uint32 allocOk k ⟨data, p + 1, sz⟩
        = .ok w2 ⟨data, p + 5, sz⟩ k'
      have hrd : read_buffer_n ⟨data, p + 1, sz⟩ 4 = (leBytes 4 v, ⟨data, p + 5, sz⟩) :=
        read_buffer_chunk data (p + 1) sz 4 (leBytes 4 v) hrest hlen (by omega)
      exact ⟨_, k + 1, by simp only [read_uint32, hrd]; exact json_integer_ok k _ _⟩
    | uint64 v =>
      simp only [encodeValue] at h hM2 ⊢
      obtain ⟨hx, hrest⟩ := hasChunk_cons data p 9 (leBytes 8 v) h
      have hlen : (leBytes 8 v).length = 8 := by simp [intLE, leBytes_length]
      simp only [List.length_cons, hlen] at hM2 ⊢
      rw [read_value_succ, read_data_type_chunk data p sz 9 hx (by norm_num) (by omega)]
      show ∃ w2 k', read_uint64 allocOk k ⟨data, p + 1, sz⟩
        = .ok w2 ⟨data, p + 9, sz⟩ k'
      have hrd : read_buffer_n ⟨data, p + 1, sz⟩ 8 = (leBytes 8 v, ⟨data, p + 9, sz⟩) :=
        read_buffer_chunk data (p + 1) sz 8 (leBytes 8 v) hrest hlen (by omega)
      exact ⟨_, k + 1, by simp only [read_uint64, hrd]; exact json_integer_ok k _ _⟩
    | float32 pl =>
      simp only [encodeValue] at h hM2 ⊢
      simp only [wfb, Bool.and_eq_true, decide_eq_true_eq] at hw
      obtain ⟨hx, hrest⟩ := hasChunk_cons data p 10 pl h
      have hlen : pl.length = 4 := by simpa using hw.1
      simp only [List.length_cons, hlen] at hM2 ⊢
      rw [read_value_succ, read_data_type_chunk data p sz 10 hx (by norm_num) (by omega)]
      show ∃ w2 k', read_real32 allocOk k ⟨data, p + 1, sz⟩
        = .ok w2 ⟨data, p + 5, sz⟩ k'
      have hrd : read_buffer_n ⟨data, p + 1, sz⟩ 4 = (pl, ⟨data, p + 5, sz⟩) :=
        read_buffer_chunk data (p + 1) sz 4 pl hrest hlen (by omega)
      exact ⟨_, k + 1, by simp only [read_real32, hrd]; exact json_real32_ok k _ _⟩
    | float64 pl =>
      simp only [encodeValue] at h hM2 ⊢
      simp only [wfb, Bool.and_eq_true, decide_eq_true_eq] at hw
      obtain ⟨hx, hrest⟩ := hasChunk_cons data p 11 pl h
      have hlen : pl.length = 8 := by simpa using hw.1
      simp only [List.length_cons, hlen] at hM2 ⊢
      rw [read_value_succ, read_data_type_chunk data p sz 11 hx (by norm_num) (by omega)]
      show ∃ w2 k', read_real64 allocOk k ⟨data, p + 1, sz⟩
        = .ok w2 ⟨data, p + 9, sz⟩ k'
      have hrd : read_buffer_n ⟨data, p + 1, sz⟩ 8 = (pl, ⟨data, p + 9, sz⟩) :=
        read_buffer_chunk data (p + 1) sz 8 pl hrest hlen (by omega)
      exact ⟨_, k + 1, by simp only [read_real64, hrd]; exact json_real64_ok k _ _⟩
    | str s =>
      simp only [encodeValue] at h hM2 ⊢
      obtain ⟨hx, hrest⟩ := hasChunk_cons data p 12 (encodeUvarint s.length ++ s) h
      simp only [List.length_cons, List.length_append] at hM2 ⊢
      rw [read_value_succ, read_data_type_chunk data p sz 12 hx (by norm_num) (by omega)]
      show ∃ w2 k', read_string allocOk k ⟨data, p + 1, sz⟩
        = .ok w2 ⟨data, p + ((encodeUvarint s.length).length + s.length + 1), sz⟩ k'
      have hrs := read_raw_string_chunk data (p + 1) sz s hrest
        (by simp only [List.length_append]; omega)
      refine ⟨.str s, k + 1, ?_⟩
      simp only [read_string, hrs, json_string_ok]
      simp only [DRes.ok.injEq, Buffer.mk.injEq, List.length_append]
      exact ⟨trivial, ⟨trivial, by omega, trivial⟩, trivial⟩
    | bytes s =>
      simp only [encodeValue] at h hM2 ⊢
      obtain ⟨hx, hrest⟩ := hasChunk_cons data p 13 (encodeUvarint s.length ++ s) h
      obtain ⟨huv, hs⟩ := hasChunk_append data (p + 1) (encodeUvarint s.length) s hrest
      simp only [List.length_cons, List.length_append] at hM2 ⊢
      rw [read_value_succ, read_data_type_chunk data p sz 13 hx (by norm_num) (by omega)]
      show ∃ w2 k', read_bytes allocOk k ⟨data, p + 1, sz⟩
        = .ok w2 ⟨data, p + ((encodeUvarint s.length).length + s.length + 1), sz⟩ k'
      have hL : s.length < 18446744073709551616 := by
        simp only [M32] at hM2
        omega
      have huvl := read_uvarint_chunk data (p + 1) sz s.length huv hL (by omega)
      have hrb : read_buffer_n
          ⟨data, p + 1 + (encodeUvarint s.length).length, sz⟩ s.length
          = (s, ⟨data, p + 1 + (encodeUvarint s.length).length + s.length, sz⟩) :=
        read_buffer_chunk data (p + 1 + (encodeUvarint s.length).length) sz s.length s
          hs rfl (by omega)
      refine ⟨.bytes s, k + 1, ?_⟩
      simp only [read_bytes, huvl, hrb, json_bytes_ok]
      simp only [DRes.ok.injEq, Buffer.mk.injEq]
      exact ⟨trivial, ⟨trivial, by omega, trivial⟩, trivial⟩
    | array xs =>
      simp only [encodeValue] at h hM2 ⊢
      simp only [wfb] at hw
      simp only [fuelNeed] at hf
      obtain ⟨hx, hrest⟩ :=
        hasChunk_cons data p 14 (encodeUvarint xs.length ++ encodeL xs) h
      obtain ⟨huv, hl⟩ :=
        hasChunk_append data (p + 1) (encodeUvarint xs.length) (encodeL xs) hrest
      simp only [List.length_cons, List.length_append] at hM2 ⊢
      obtain ⟨g, rfl⟩ : ∃ g, f1 = g + 1 := ⟨f1 - 1, by omega⟩
      rw [read_value_succ, read_data_type_chunk data p sz 14 hx (by norm_num) (by omega)]
      show ∃ w2 k', read_array allocOk (g + 1) k ⟨data, p + 1, sz⟩
        = .ok w2 ⟨data, p + ((encodeUvarint xs.length).length + (encodeL xs).length + 1),
            sz⟩ k'
      rw [read_array_succ]
      have hxl : xs.length < 18446744073709551616 := by
        have h1 := encodeL_length_ge xs
        simp only [M32] at hM2
        omega
      rw [read_uvarint_chunk data (p + 1) sz xs.length huv hxl (by omega)]
      obtain ⟨acc2, k2, hL⟩ := (ih g (by omega)).2.1 xs 0 xs.length data
        (p + 1 + (encodeUvarint xs.length).length) sz k [] hw hl (by omega) (by omega)
        (by have := encodeL_length_ge xs; omega) (by omega)
      refine ⟨.array acc2, k2, ?_⟩
      rw [hL]
      simp only [DRes.ok.injEq, Buffer.mk.injEq]
      exact ⟨trivial, ⟨trivial, by omega, trivial⟩, trivial⟩
    | obj es =>
      simp only [encodeValue] at h hM2 ⊢
      simp only [wfb] at hw
      simp only [fuelNeed] at hf
      obtain ⟨hx, hrest⟩ :=
        hasChunk_cons data p 15 (encodeUvarint es.length ++ encodeE es) h
      obtain ⟨huv, hl⟩ :=
        hasChunk_append data (p + 1) (encodeUvarint es.length) (encodeE es) hrest
      simp only [List.length_cons, List.length_append] at hM2 ⊢
      obtain ⟨g, rfl⟩ : ∃ g, f1 = g + 1 := ⟨f1 - 1, by omega⟩
      rw [read_value_succ, read_data_type_chunk data p sz 15 hx (by norm_num) (by omega)]
      show ∃ w2 k', read_obj allocOk (g + 1) k ⟨data, p + 1, sz⟩
        = .ok w2 ⟨data, p + ((encodeUvarint es.length).length + (encodeE es).length + 1),
            sz⟩ k'
      rw [read_obj_succ]
      have hxl : es.length < 18446744073709551616 := by
        have h1 := encodeE_length_ge es
        simp only [M32] at hM2
        omega
      rw [read_uvarint_chunk data (p + 1) sz es.length huv hxl (by omega)]
      obtain ⟨ent2, k2, hL⟩ := (ih g (by omega)).2.2 es 0 es.length data
        (p + 1 + (encodeUvarint es.length).length) sz k [] hw hl (by omega) (by omega)
        (by have := encodeE_length_ge es; omega) (by omega)
      refine ⟨.object ent2, k2, ?_⟩
      rw [hL]
      simp only [DRes.ok.injEq, Buffer.mk.injEq]
      exact ⟨trivial, ⟨trivial, by omega, trivial⟩, trivial⟩
  · intro xs i n data p sz k acc hw h hf hi hn hM2
    cases xs with
    | nil =>
      simp only [encodeL, List.length_nil] at hM2 ⊢
      rw [read_array_loop_exit allocOk fuel i n acc k _ (by simp at hi; omega)]
      exact ⟨acc, k, by simp⟩
    | cons c cs =>
      simp only [encodeL, List.length_append] at h hM2 ⊢
      simp only [wfbL, Bool.and_eq_true] at hw
      simp only [fuelNeedL] at hf
      simp only [List.length_cons] at hi
      obtain ⟨hc, hcs⟩ := hasChunk_append data p (encodeValue c) (encodeL cs) h
      obtain ⟨g, rfl⟩ : ∃ g, fuel = g + 1 := ⟨fuel - 1, by omega⟩
      rw [read_array_loop_succ allocOk g i n acc k _ (by omega)]
      obtain ⟨w, k1, hv⟩ := (ih g (by omega)).1 c data p sz k hw.1 hc (by omega) (by omega)
      have hmod : (i + 1) % M32 = i + 1 := Nat.mod_eq_of_lt (by omega)
      simp only [hv, hmod, allocOk, if_true]
      obtain ⟨acc2, k2, hcs2⟩ := (ih g (by omega)).2.1 cs (i + 1) n data
        (p + (encodeValue c).length) sz (k1 + 1) (acc ++ [w]) hw.2 hcs (by omega)
        (by omega) hn (by omega)
      refine ⟨acc2, k2, ?_⟩
      rw [hcs2]
      simp only [DRes.ok.injEq, Buffer.mk.injEq]
      exact ⟨trivial, ⟨trivial, by omega, trivial⟩, trivial⟩
  · intro es i n data p sz k entries hw h hf hi hn hM2
    cases es with
    | nil =>
      simp only [encodeE, List.length_nil] at hM2 ⊢
      rw [read_obj_loop_exit allocOk fuel i n entries k _ (by simp at hi; omega)]
      exact ⟨entries, k, by simp⟩
    | cons e es =>
      simp only [encodeE, List.length_append] at h hM2 ⊢
      simp only [wfbE, Bool.and_eq_true] at hw
      simp only [fuelNeedE] at hf
      simp only [List.length_cons] at hi
      obtain ⟨hent, hes⟩ := hasChunk_append data p
        (encodeUvarint e.1.length ++ e.1 ++ encodeValue e.2) (encodeE es) h
      obtain ⟨hkey, hval⟩ := hasChunk_append data p
        (encodeUvarint e.1.length ++ e.1) (encodeValue e.2) hent
      obtain ⟨g, rfl⟩ : ∃ g, fuel = g + 1 := ⟨fuel - 1, by omega⟩
      rw [read_obj_loop_succ allocOk g i n entries k _ (by omega)]
      have hrsk := read_raw_string_chunk data p sz e.1 hkey
        (by simp only [List.length_append] at hM2 ⊢; omega)
      obtain ⟨w, k1, hv⟩ := (ih g (by omega)).1 e.2 data
        (p + (encodeUvarint e.1.length ++ e.1).length) sz k hw.1.2 hval (by omega)
        (by simp only [List.length_append] at hM2 ⊢; omega)
      have hmod : (i + 1) % M32 = i + 1 := Nat.mod_eq_of_lt (by omega)
      simp only [hrsk, hv, hmod, allocOk, if_true]
      obtain ⟨ent2, k2, hes2⟩ := (ih g (by omega)).2.2 es (i + 1) n data
        (p + (encodeUvarint e.1.length ++ e.1).length + (encodeValue e.2).length) sz
        (k1 + 1) (objSet entries e.1 w) hw.2
        (hasChunk_congr data _ _ _ hes (by simp only [List.length_append]; omega))
        (by omega) (by omega) hn
        (by simp only [List.length_append] at hM2 ⊢; omega)
      refine ⟨ent2, k2, ?_⟩
      rw [hes2]
      simp only [DRes.ok.injEq, Buffer.mk.injEq, List.length_append]
      exact ⟨trivial, ⟨trivial, by omega, trivial⟩, trivial⟩

/-- C2: for every valid encoded buffer (the envelope followed by the
encoding of a well-formed value, with total size representable in the
32-bit header), `bos_validate` returns true and `bos_deserialize`
succeeds (with the external value-model allocations succeeding), so the
two agree: validate is true iff deserialize returns a value. -/
theorem c2_validate_iff_deserialize (v : BValue)
    (hw : wfb v = true) (hsz : 4 + (encodeValue v).length < M32) :
    bos_validate (encodeTop v) (encodeTop v).length (fuelNeed v) = some true ∧
    (∃ w b k, bos_deserialize allocOk (fuelNeed v) (encodeTop v) = .ok w b k) ∧
    ((bos_validate (encodeTop v) (encodeTop v).length (fuelNeed v) = some true) ↔
      (∃ w b k, bos_deserialize allocOk (fuelNeed v) (encodeTop v) = .ok w b k)) := by
  have hT5 : 5 ≤ 4 + (encodeValue v).length := by
    have := enc_length_pos v
    omega
  have hdr : leVal (bytesAt (encodeTop v) 0 4) = 4 + (encodeValue v).length := by
    have h1 : encodeTop v
        = [] ++ leBytes 4 (4 + (encodeValue v).length) ++ encodeValue v := by
      simp [encodeTop]
    rw [h1]
    have h2 := bytesAt_take [] (leBytes 4 (4 + (encodeValue v).length))
      (encodeValue v) 4 (by simp [leBytes_length])
    simp only [List.length_nil] at h2
    rw [h2]
    rw [List.take_of_length_le (by simp [leBytes_length])]
    refine leVal_leBytes 4 _ ?_
    have h4 : (256 : Nat) ^ 4 = 4294967296 := by norm_num
    rw [h4]
    simpa [M32] using hsz
  have hlen : (encodeTop v).length = 4 + (encodeValue v).length := by
    simp [encodeTop, leBytes_length]
  have hchunk : hasChunk (encodeTop v) 4 (encodeValue v) := by
    have h1 := hasChunk_of_append (leBytes 4 (4 + (encodeValue v).length))
      (encodeValue v) []
    simp only [List.append_nil, leBytes_length] at h1
    exact h1
  have hbi : buffer_init (encodeTop v)
      = ⟨encodeTop v, 4, 4 + (encodeValue v).length⟩ := by
    simp only [buffer_init, hdr]
  have hvv := (validator_complete (fuelNeed v)).1 v (encodeTop v) 4
    (4 + (encodeValue v).length) hw hchunk le_rfl (by omega) (by omega)
  have hval : bos_validate (encodeTop v) (encodeTop v).length (fuelNeed v)
      = some true := by
    simp only [bos_validate, hlen, hdr]
    rw [if_neg (by omega), if_neg (by omega), hbi, hvv]
  obtain ⟨w, k', hd⟩ := (decoder_complete (fuelNeed v)).1 v (encodeTop v) 4
    (4 + (encodeValue v).length) 0 hw hchunk le_rfl (by omega)
  have hdes : ∃ w b k, bos_deserialize allocOk (fuelNeed v) (encodeTop v)
      = .ok w b k := by
    refine ⟨w, ⟨encodeTop v, 4 + (encodeValue v).length,
      4 + (encodeValue v).length⟩, k', ?_⟩
    simp only [bos_deserialize, hbi]
    rw [if_neg (by omega)]
    exact hd
  exact ⟨hval, hdes, iff_of_true hval hdes⟩

/-- Witness for C2 at the value `true`: the buffer 06 00 00 00 01 01. -/
theorem c2_validate_iff_deserialize_witness :
    (wfb (.boolean true) = true ∧ 4 + (encodeValue (.boolean true)).length < M32) ∧
    bos_validate (encodeTop (.boolean true)) (encodeTop (.boolean true)).length
      (fuelNeed (.boolean true)) = some true ∧
    (∃ w b k, bos_deserialize allocOk (fuelNeed (.boolean true))
      (encodeTop (.boolean true)) = .ok w b k) :=
  ⟨⟨by decide, by decide⟩,
    (c2_validate_iff_deserialize (.boolean true) (by decide) (by decide)).1,
    (c2_validate_iff_deserialize (.boolean true) (by decide) (by decide)).2.1⟩

end Bos
